import Mathlib

/-!
Verification of the sanitization/validation pipeline (sanitize.py, validate.py).

The Python data model (JSON-decoded values: None, bool, int, str, list, dict)
is embedded as the mutual inductive `JsonValue`/`JsonItems`/`JsonMembers`
(objects are insertion-ordered key/value sequences, as Python dicts are).
Floating-point JSON numbers are not modelled; no claim depends on them.
-/

set_option maxRecDepth 10000

namespace ErrorReports

mutual

inductive JsonValue where
  | null : JsonValue
  | bool (b : Bool) : JsonValue
  | int (n : Int) : JsonValue
  | str (s : String) : JsonValue
  | arr (xs : JsonItems) : JsonValue
  | obj (fs : JsonMembers) : JsonValue

inductive JsonItems where
  | nil : JsonItems
  | cons (v : JsonValue) (tl : JsonItems) : JsonItems

inductive JsonMembers where
  | nil : JsonMembers
  | cons (k : String) (v : JsonValue) (tl : JsonMembers) : JsonMembers

end

mutual

def JsonValue.beq : JsonValue → JsonValue → Bool
  | .null, .null => true
  | .bool a, .bool b => a = b
  | .int a, .int b => a = b
  | .str a, .str b => a = b
  | .arr a, .arr b => JsonItems.beq a b
  | .obj a, .obj b => JsonMembers.beq a b
  | _, _ => false

def JsonItems.beq : JsonItems → JsonItems → Bool
  | .nil, .nil => true
  | .cons v tl, .cons w tm => JsonValue.beq v w && JsonItems.beq tl tm
  | _, _ => false

def JsonMembers.beq : JsonMembers → JsonMembers → Bool
  | .nil, .nil => true
  | .cons k v tl, .cons j w tm => k = j && JsonValue.beq v w && JsonMembers.beq tl tm
  | _, _ => false

end

/-- Python `repr` of a string: quote selection (single quotes unless the
string contains a single quote and no double quote) plus standard escapes. -/
def pyReprStringBody (q : Char) (cs : List Char) : String :=
  match cs with
  | [] => ""
  | c :: rest =>
    (if c = '\\' then "\\\\"
     else if c = q then "\\" ++ String.mk [q]
     else if c = Char.ofNat 10 then "\\n"
     else if c = Char.ofNat 13 then "\\r"
     else if c = Char.ofNat 9 then "\\t"
     else String.mk [c]) ++ pyReprStringBody q rest

def pyReprString (s : String) : String :=
  let q : Char :=
    if s.data.contains (Char.ofNat 39) && !(s.data.contains (Char.ofNat 34))
    then Char.ofNat 34 else Char.ofNat 39
  String.mk [q] ++ pyReprStringBody q s.data ++ String.mk [q]

mutual

/-- Python `repr` of a JSON-decoded value (used by `str` for containers). -/
def pyRepr : JsonValue → String
  | .null => "None"
  | .bool b => if b then "True" else "False"
  | .int n => n.repr
  | .str s => pyReprString s
  | .arr xs => "[" ++ pyReprItems xs ++ "]"
  | .obj fs => "\x7b" ++ pyReprMembers fs ++ "\x7d"

def pyReprItems : JsonItems → String
  | .nil => ""
  | .cons v .nil => pyRepr v
  | .cons v tl => pyRepr v ++ ", " ++ pyReprItems tl

def pyReprMembers : JsonMembers → String
  | .nil => ""
  | .cons k v .nil => pyReprString k ++ ": " ++ pyRepr v
  | .cons k v tl => pyReprString k ++ ": " ++ pyRepr v ++ ", " ++ pyReprMembers tl

end

/-- Python `str(value)`: identity on strings, `repr` otherwise
(`str(None) = "None"`, `str(True) = "True"`, decimal integers, container repr). -/
def pyStr : JsonValue → String
  | .str s => s
  | v => pyRepr v

/-- Python truthiness of a JSON-decoded value. -/
def pyTruthy : JsonValue → Bool
  | .null => false
  | .bool b => b
  | .int n => decide (n ≠ 0)
  | .str s => decide (s ≠ "")
  | .arr .nil => false
  | .arr (.cons _ _) => true
  | .obj .nil => false
  | .obj (.cons _ _ _) => true

namespace JsonMembers

/-- Keys of a dict, in insertion order. -/
def keys : JsonMembers → List String
  | .nil => []
  | .cons k _ tl => k :: keys tl

/-- `k in record` for Python dicts. -/
def hasKey : JsonMembers → String → Bool
  | .nil, _ => false
  | .cons k _ tl, key => k = key || hasKey tl key

/-- `record[k]` lookup (first occurrence; Python dict keys are unique). -/
def lookup : JsonMembers → String → Option JsonValue
  | .nil, _ => none
  | .cons k v tl, key => if k = key then some v else lookup tl key

/-- `record[k]` with the `null` default (only used under a `hasKey` guard). -/
def getD (fs : JsonMembers) (key : String) : JsonValue :=
  (fs.lookup key).getD .null

/-- `record[k] = v`: replace in place if present, else append. -/
def setKey : JsonMembers → String → JsonValue → JsonMembers
  | .nil, key, v => .cons key v .nil
  | .cons k w tl, key, v =>
    if k = key then .cons k v tl else .cons k w (setKey tl key v)

/-- `record.pop(k, None)`: drop the key if present. -/
def popKey : JsonMembers → String → JsonMembers
  | .nil, _ => .nil
  | .cons k w tl, key => if k = key then tl else .cons k w (popKey tl key)

/-- Well-formedness of a Python dict: keys are distinct. -/
def NodupKeys (fs : JsonMembers) : Prop := fs.keys.Nodup

instance (fs : JsonMembers) : Decidable fs.NodupKeys :=
  inferInstanceAs (Decidable fs.keys.Nodup)

end JsonMembers

/-!
SHA-256 (FIPS 180-4), executable over `Nat`, modelling
`hashlib.sha256(...).hexdigest()`. Machine words are `Nat` reduced `% 2^32`.
-/

/-- UTF-8 encoding of one character (Python `str.encode()`). -/
def utf8Encode (c : Char) : List Nat :=
  let n := c.toNat
  if n < 128 then [n]
  else if n < 2048 then [192 + n / 64, 128 + n % 64]
  else if n < 65536 then [224 + n / 4096, 128 + (n / 64) % 64, 128 + n % 64]
  else [240 + n / 262144, 128 + (n / 4096) % 64, 128 + (n / 64) % 64, 128 + n % 64]

/-- Byte sequence of a string under UTF-8 (Python `str.encode()`). -/
def strBytes (s : String) : List Nat := s.data.flatMap utf8Encode

def w32 : Nat := 4294967296

def rotr32 (x n : Nat) : Nat := ((x >>> n) ||| (x <<< (32 - n))) % w32

def not32 (x : Nat) : Nat := x ^^^ 4294967295

def ch32 (x y z : Nat) : Nat := (x &&& y) ^^^ (not32 x &&& z)

def maj32 (x y z : Nat) : Nat := (x &&& y) ^^^ (x &&& z) ^^^ (y &&& z)

def bsig0 (x : Nat) : Nat := rotr32 x 2 ^^^ rotr32 x 13 ^^^ rotr32 x 22

def bsig1 (x : Nat) : Nat := rotr32 x 6 ^^^ rotr32 x 11 ^^^ rotr32 x 25

def ssig0 (x : Nat) : Nat := rotr32 x 7 ^^^ rotr32 x 18 ^^^ (x >>> 3)

def ssig1 (x : Nat) : Nat := rotr32 x 17 ^^^ rotr32 x 19 ^^^ (x >>> 10)

def sha256K : List Nat :=
  [1116352408, 1899447441, 3049323471, 3921009573, 961987163, 1508970993,
   2453635748, 2870763221, 3624381080, 310598401, 607225278, 1426881987,
   1925078388, 2162078206, 2614888103, 3248222580, 3835390401, 4022224774,
   264347078, 604807628, 770255983, 1249150122, 1555081692, 1996064986,
   2554220882, 2821834349, 2952996808, 3210313671, 3336571891, 3584528711,
   113926993, 338241895, 666307205, 773529912, 1294757372, 1396182291,
   1695183700, 1986661051, 2177026350, 2456956037, 2730485921, 2820302411,
   3259730800, 3345764771, 3516065817, 3600352804, 4094571909, 275423344,
   430227734, 506948616, 659060556, 883997877, 958139571, 1322822218,
   1537002063, 1747873779, 1955562222, 2024104815, 2227730452, 2361852424,
   2428436474, 2756734187, 3204031479, 3329325298]

def sha256H0 : List Nat :=
  [1779033703, 3144134277, 1013904242, 2773480762,
   1359893119, 2600822924, 528734635, 1541459225]

/-- Big-endian bytes of the 64-bit message length. -/
def lenBytes64 (n : Nat) : List Nat :=
  [(n >>> 56) % 256, (n >>> 48) % 256, (n >>> 40) % 256, (n >>> 32) % 256,
   (n >>> 24) % 256, (n >>> 16) % 256, (n >>> 8) % 256, n % 256]

/-- SHA-256 message padding: `0x80`, zero fill to 56 mod 64, 64-bit bit length. -/
def sha256Pad (msg : List Nat) : List Nat :=
  msg ++ [128] ++ List.replicate ((119 - msg.length % 64) % 64) 0
      ++ lenBytes64 (8 * msg.length)

/-- Big-endian 32-bit words from bytes. -/
def bytesToWords : List Nat → List Nat
  | b0 :: b1 :: b2 :: b3 :: rest =>
    (b0 * 16777216 + b1 * 65536 + b2 * 256 + b3) :: bytesToWords rest
  | _ => []

/-- Split the word stream into 16-word blocks. -/
def wordBlocks : List Nat → List (List Nat)
  | a0 :: a1 :: a2 :: a3 :: a4 :: a5 :: a6 :: a7 ::
    a8 :: a9 :: a10 :: a11 :: a12 :: a13 :: a14 :: a15 :: rest =>
    [a0, a1, a2, a3, a4, a5, a6, a7, a8, a9, a10, a11, a12, a13, a14, a15]
      :: wordBlocks rest
  | _ => []

/-- Extend 16 schedule words to 64 (48 extension steps). -/
def sha256Sched : Nat → List Nat → List Nat
  | 0, w => w
  | f + 1, w =>
    let n := w.length
    let t := (ssig1 (w.getD (n - 2) 0) + w.getD (n - 7) 0
              + ssig0 (w.getD (n - 15) 0) + w.getD (n - 16) 0) % w32
    sha256Sched f (w ++ [t])

def sha256Round (st : List Nat) (kw : Nat × Nat) : List Nat :=
  match st with
  | [a, b, c, d, e, f, g, h] =>
    let t1 := (h + bsig1 e + ch32 e f g + kw.1 + kw.2) % w32
    let t2 := (bsig0 a + maj32 a b c) % w32
    [(t1 + t2) % w32, a, b, c, (d + t1) % w32, e, f, g]
  | other => other

def sha256Block (h : List Nat) (w16 : List Nat) : List Nat :=
  let w := sha256Sched 48 w16
  let out := (sha256K.zip w).foldl sha256Round h
  (h.zip out).map (fun p => (p.1 + p.2) % w32)

/-- The eight 32-bit hash words of a byte message. -/
def sha256Words (msg : List Nat) : List Nat :=
  (wordBlocks (bytesToWords (sha256Pad msg))).foldl sha256Block sha256H0

def hexDigitChar (n : Nat) : Char := "0123456789abcdef".data.getD n '0'

/-- Eight lowercase hex characters of one 32-bit word, most significant first. -/
def wordHex (w : Nat) : List Char :=
  [hexDigitChar ((w >>> 28) % 16), hexDigitChar ((w >>> 24) % 16),
   hexDigitChar ((w >>> 20) % 16), hexDigitChar ((w >>> 16) % 16),
   hexDigitChar ((w >>> 12) % 16), hexDigitChar ((w >>> 8) % 16),
   hexDigitChar ((w >>> 4) % 16), hexDigitChar (w % 16)]

/-- `hashlib.sha256(bytes).hexdigest()`: 64 lowercase hex characters. -/
def sha256Hexdigest (msg : List Nat) : List Char :=
  (sha256Words msg).flatMap wordHex

/-- Value of one hex digit (`int(_, 16)` on valid lowercase digits). -/
def hexVal (c : Char) : Nat :=
  match c with
  | '0' => 0 | '1' => 1 | '2' => 2 | '3' => 3 | '4' => 4
  | '5' => 5 | '6' => 6 | '7' => 7 | '8' => 8 | '9' => 9
  | 'a' => 10 | 'b' => 11 | 'c' => 12 | 'd' => 13 | 'e' => 14 | 'f' => 15
  | _ => 0

def hexParseAux (acc : Nat) : List Char → Nat
  | [] => acc
  | c :: cs => hexParseAux (acc * 16 + hexVal c) cs

/-- `int(s, 16)` on a hex-digit string. -/
def hexParse (cs : List Char) : Nat := hexParseAux 0 cs


/-!
The redaction patterns of sanitize.py.

`EMAIL_PATTERN = \S+@\S+\.\S+`: every character of the pattern is a
non-whitespace class, so a match lives inside one maximal whitespace-free
run; the leftmost match then starts at the run start (feasibility of a start
position is monotone) and the final greedy `\S+` extends it to the run end,
so `re.sub` replaces the whole run exactly when the run matches at all.
`HOME_PATH_PATTERN = /home/[a-zA-Z0-9_.-]+` and
`USER_PATH_PATTERN = /users?/[a-zA-Z0-9_.-]+ (IGNORECASE)` are literal
scanners; `re.sub` scans left to right, replacing each non-overlapping match
and resuming after it. The scanners below implement exactly these semantics;
recursion is by an explicit fuel, instantiated with the text length.
-/

/-- Python `\s` (str patterns): ASCII whitespace plus the Unicode spaces. -/
def pyIsSpace (c : Char) : Bool :=
  let n := c.toNat
  n = 32 || n = 9 || n = 10 || n = 13 || n = 11 || n = 12 ||
  n = 28 || n = 29 || n = 30 || n = 31 || n = 133 || n = 160 ||
  n = 5760 || (8192 ≤ n && n ≤ 8202) || n = 8232 || n = 8233 ||
  n = 8239 || n = 8287 || n = 12288

/-- The character class `[a-zA-Z0-9_.-]` of the two path patterns,
by code points: `a`-`z`, `A`-`Z`, `0`-`9`, `_`, `.`, `-`. -/
def classChar (c : Char) : Bool :=
  let n := c.toNat
  (97 ≤ n && n ≤ 122) || (65 ≤ n && n ≤ 90) || (48 ≤ n && n ≤ 57) ||
  n = 95 || n = 46 || n = 45

/-- Is there a '.' strictly before the final position? -/
def dotNotLast : List Char → Bool
  | [] => false
  | [_] => false
  | c :: c2 :: rest => c = '.' || dotNotLast (c2 :: rest)

/-- After an '@': a nonempty run, then '.', then a nonempty run
(`\S+\.\S+` inside a whitespace-free text). -/
def emailAfterAt : List Char → Bool
  | [] => false
  | _ :: rest => dotNotLast rest

/-- Some '@' at any position whose tail completes the email pattern. -/
def hasAtDot : List Char → Bool
  | [] => false
  | c :: rest => (c = '@' && emailAfterAt rest) || hasAtDot rest

/-- `\S+@\S+\.\S+` matches inside the whitespace-free run: an '@' at
position ≥ 1, then ≥ 1 character, a '.', and ≥ 1 further character. -/
def runHasEmail : List Char → Bool
  | [] => false
  | _ :: rest => hasAtDot rest

def emailRepl : List Char := ['[', 'E', 'M', 'A', 'I', 'L', ']']

def homeRepl : List Char :=
  ['/', 'h', 'o', 'm', 'e', '/', '[', 'U', 'S', 'E', 'R', ']']

def userRepl : List Char :=
  ['/', 'u', 's', 'e', 'r', '/', '[', 'U', 'S', 'E', 'R', ']']

/-- `EMAIL_PATTERN.sub('[EMAIL]', ...)`: replace each matching maximal
whitespace-free run wholesale. -/
def subEmailF : Nat → List Char → List Char
  | 0, l => l
  | _ + 1, [] => []
  | fuel + 1, c :: cs =>
    if pyIsSpace c then c :: subEmailF fuel cs
    else
      (if runHasEmail (c :: cs.takeWhile (fun x => !pyIsSpace x)) then emailRepl
       else c :: cs.takeWhile (fun x => !pyIsSpace x))
        ++ subEmailF fuel (cs.dropWhile (fun x => !pyIsSpace x))

def subEmail (l : List Char) : List Char := subEmailF l.length l

/-- Match a literal at the head, returning the remainder. -/
def matchLead : List Char → List Char → Option (List Char)
  | [], l => some l
  | _ :: _, [] => none
  | p :: ps, c :: cs => if c = p then matchLead ps cs else none

def homeLit : List Char := ['/', 'h', 'o', 'm', 'e', '/']

/-- `HOME_PATH_PATTERN` attempted at the current position: the literal
`/home/` followed by a maximal nonempty class run; returns the remainder. -/
def homeMatch (l : List Char) : Option (List Char) :=
  match matchLead homeLit l with
  | some (r :: rest) =>
    if classChar r then some ((r :: rest).dropWhile classChar) else none
  | _ => none

/-- `HOME_PATH_PATTERN.sub('/home/[USER]', ...)`: left-to-right scan,
non-overlapping matches replaced, scanning resumes after each match. -/
def subHomeF : Nat → List Char → List Char
  | 0, l => l
  | _ + 1, [] => []
  | fuel + 1, c :: cs =>
    match homeMatch (c :: cs) with
    | some rest => homeRepl ++ subHomeF fuel rest
    | none => c :: subHomeF fuel cs

def subHome (l : List Char) : List Char := subHomeF l.length l

/-- IGNORECASE letter tests for the `/users?/` literal (the regex is over
the ASCII letters `u`, `s`, `e`, `r`). -/
def isU (c : Char) : Bool := c = 'u' || c = 'U'

def isS (c : Char) : Bool := c = 's' || c = 'S'

def isE (c : Char) : Bool := c = 'e' || c = 'E'

def isR (c : Char) : Bool := c = 'r' || c = 'R'

/-- `USER_PATH_PATTERN` attempted at the current position: `/user` case
insensitively, then the greedy `s?` (whose backtrack alternative `/` can
never equal a consumed `s`, so its failure is final), then `/` and a maximal
nonempty class run. -/
def userMatch (l : List Char) : Option (List Char) :=
  match l with
  | c0 :: c1 :: c2 :: c3 :: c4 :: rest =>
    if c0 = '/' && isU c1 && isS c2 && isE c3 && isR c4 then
      match rest with
      | d :: rest2 =>
        if isS d then
          match rest2 with
          | e :: r :: rr =>
            if e = '/' && classChar r then some ((r :: rr).dropWhile classChar)
            else none
          | _ => none
        else if d = '/' then
          match rest2 with
          | r :: rr =>
            if classChar r then some ((r :: rr).dropWhile classChar) else none
          | _ => none
        else none
      | [] => none
    else none
  | _ => none

/-- `USER_PATH_PATTERN.sub('/user/[USER]', ...)`. -/
def subUserF : Nat → List Char → List Char
  | 0, l => l
  | _ + 1, [] => []
  | fuel + 1, c :: cs =>
    match userMatch (c :: cs) with
    | some rest => userRepl ++ subUserF fuel rest
    | none => c :: subUserF fuel cs

def subUser (l : List Char) : List Char := subUserF l.length l

/-- Does the literal `lit` followed by one class character match at the
head? (`homeMatch` succeeds exactly when this holds of `/home/`.) -/
def litThenClass (lit l : List Char) : Bool :=
  match matchLead lit l with
  | some (r :: _) => classChar r
  | _ => false

/-- The residual literals of `/home/` after consuming a prefix. -/
def homeSuffixes : List (List Char) :=
  [['/', 'h', 'o', 'm', 'e', '/'], ['h', 'o', 'm', 'e', '/'],
   ['o', 'm', 'e', '/'], ['m', 'e', '/'], ['e', '/'], ['/'], []]

/-- The `s?/[class]` tail of the user matcher, as a Boolean test. -/
def uTail2 (l : List Char) : Bool :=
  match l with
  | d :: rest2 =>
    if isS d then
      match rest2 with
      | e :: r :: _ => e = '/' && classChar r
      | _ => false
    else if d = '/' then
      match rest2 with
      | r :: _ => classChar r
      | _ => false
    else false
  | [] => false

/-- Residual states of the `/users?/[class]+` matcher after consuming 0-7
characters of a candidate match; state 0 is the whole pattern. -/
def uFrom (st : Nat) (l : List Char) : Bool :=
  match st, l with
  | 0, c0 :: c1 :: c2 :: c3 :: c4 :: rest =>
    c0 = '/' && isU c1 && isS c2 && isE c3 && isR c4 && uTail2 rest
  | 1, c1 :: c2 :: c3 :: c4 :: rest => isU c1 && isS c2 && isE c3 && isR c4 && uTail2 rest
  | 2, c2 :: c3 :: c4 :: rest => isS c2 && isE c3 && isR c4 && uTail2 rest
  | 3, c3 :: c4 :: rest => isE c3 && isR c4 && uTail2 rest
  | 4, c4 :: rest => isR c4 && uTail2 rest
  | 5, l => uTail2 l
  | 6, c :: r :: _ => c = '/' && classChar r
  | 7, c :: _ => classChar c
  | _, _ => false

/-- No whitespace characters. -/
def noSpace (l : List Char) : Bool := l.all (fun c => !pyIsSpace c)

/-- No suffix position of the text matches `HOME_PATH_PATTERN`. -/
def homeFreeP (l : List Char) : Prop := ∀ s, s <:+ l → homeMatch s = none

/-- No suffix position of the text matches `USER_PATH_PATTERN`. -/
def userFreeP (l : List Char) : Prop := ∀ s, s <:+ l → userMatch s = none

/-- The three substitutions of `redact_text`, in source order. -/
def redactChars (l : List Char) : List Char := subUser (subHome (subEmail l))

def redactString (s : String) : String := String.mk (redactChars s.data)

/-- `redact_text` from sanitize.py: falsy text is returned unchanged; any
other value is stringified and the three patterns are substituted. -/
def redact_text (text : JsonValue) : JsonValue :=
  if pyTruthy text then .str (redactString (pyStr text)) else text

/-- `hash_id` from sanitize.py:
`None` maps to `None`; any other value is stringified, UTF-8 encoded,
SHA-256 hashed, and the first 8 hex digits are parsed as an integer. -/
def hash_id (value : JsonValue) : JsonValue :=
  match value with
  | .null => .null
  | v => .int (Int.ofNat (hexParse ((sha256Hexdigest (strBytes (pyStr v))).take 8)))


/-!
sanitize.py: field configuration and `sanitize_record`.
-/

/-- `TEXT_FIELDS` from sanitize.py. -/
def TEXT_FIELDS : List String :=
  ["command_line", "tool_stderr", "tool_stdout", "job_stderr", "job_stdout",
   "traceback", "info"]

/-- `FIELDS_TO_REMOVE` from sanitize.py. -/
def FIELDS_TO_REMOVE : List String := ["session_id", "history_id"]

/-- One step of the removal loop of `sanitize_record`. -/
def removeStep (r : JsonMembers) (f : String) : JsonMembers := r.popKey f

/-- One step of the text-redaction loop of `sanitize_record`:
`if field in record and record[field]: record[field] = redact_text(...)`. -/
def redactStep (r : JsonMembers) (f : String) : JsonMembers :=
  if r.hasKey f && pyTruthy (r.getD f) then r.setKey f (redact_text (r.getD f))
  else r

/-- `sanitize_record` from sanitize.py: hash `user_id` when present, drop the
removed fields, redact every present truthy text field. -/
def sanitize_record (record : JsonMembers) : JsonMembers :=
  let r1 := if record.hasKey "user_id"
            then record.setKey "user_id" (hash_id (record.getD "user_id"))
            else record
  TEXT_FIELDS.foldl redactStep (FIELDS_TO_REMOVE.foldl removeStep r1)

/-!
validate.py: schema configuration, `validate_record`, `validate_file`.
Python exceptions that can escape the modelled fragments are explicit
`Except` errors.
-/

/-- Python exceptions raised by the modelled fragments. -/
inductive PyErr where
  | typeError (msg : String)
  | keyError (key : Nat)
deriving DecidableEq

/-- The Python classes a JSON-decoded value can have. -/
inductive PyType where
  | noneT | boolT | intT | floatT | strT | listT | dictT
deriving DecidableEq

def typeName : PyType → String
  | .noneT => "NoneType"
  | .boolT => "bool"
  | .intT => "int"
  | .floatT => "float"
  | .strT => "str"
  | .listT => "list"
  | .dictT => "dict"

def typeOf : JsonValue → PyType
  | .null => .noneT
  | .bool _ => .boolT
  | .int _ => .intT
  | .str _ => .strT
  | .arr _ => .listT
  | .obj _ => .dictT

/-- `isinstance(v, t)` for one class: `bool` is a subclass of `int`. -/
def isinstOne (v : JsonValue) (t : PyType) : Bool :=
  typeOf v = t || (typeOf v = PyType.boolT && t = PyType.intT)

/-- A declared expected type: a single class or a tuple of classes
(the distinction shows in the `expected` part of error messages). -/
inductive TypeSpec where
  | one (t : PyType)
  | many (ts : List PyType)

def TypeSpec.types : TypeSpec → List PyType
  | .one t => [t]
  | .many ts => ts

/-- `isinstance(v, spec)`. -/
def isinst (v : JsonValue) (spec : TypeSpec) : Bool :=
  spec.types.any (isinstOne v)

def classRepr (t : PyType) : String := "<class \x27" ++ typeName t ++ "\x27>"

/-- Python `str()` of the expected-types entry (a class or tuple of classes),
as interpolated into required-field error messages. -/
def TypeSpec.reprPy : TypeSpec → String
  | .one t => classRepr t
  | .many [t] => "(" ++ classRepr t ++ ",)"
  | .many ts => "(" ++ String.intercalate ", " (ts.map classRepr) ++ ")"

/-- `REQUIRED_FIELDS` from validate.py. -/
def REQUIRED_FIELDS : List (String × TypeSpec) :=
  [("id", .many [.intT, .noneT]),
   ("create_time", .one .strT),
   ("tool_id", .many [.strT, .noneT]),
   ("state", .one .strT)]

/-- `OPTIONAL_FIELDS` from validate.py. -/
def OPTIONAL_FIELDS : List (String × TypeSpec) :=
  [("exit_code", .many [.intT, .floatT, .noneT]),
   ("tool_stderr", .many [.strT, .noneT]),
   ("tool_stdout", .many [.strT, .noneT]),
   ("tool_version", .many [.strT, .noneT]),
   ("destination_id", .many [.strT, .noneT]),
   ("user_id", .many [.intT, .floatT, .noneT]),
   ("job_stderr", .many [.strT, .noneT]),
   ("job_stdout", .many [.strT, .noneT]),
   ("handler", .many [.strT, .noneT]),
   ("update_time", .many [.strT, .noneT]),
   ("session_id", .many [.intT, .noneT]),
   ("history_id", .many [.intT, .noneT])]

def JsonItems.toList : JsonItems → List JsonValue
  | .nil => []
  | .cons v tl => v :: tl.toList

def JsonItems.length (xs : JsonItems) : Nat := xs.toList.length

def JsonMembers.length : JsonMembers → Nat
  | .nil => 0
  | .cons _ _ tl => 1 + tl.length

/-- The required-fields loop of `validate_record` (lines 56-61). -/
def checkRequired (index : Nat) (record : JsonMembers) : List String :=
  REQUIRED_FIELDS.foldr
    (fun p acc =>
      (if !record.hasKey p.1 then
        ["Record " ++ toString index ++ ": missing required field \x27" ++ p.1 ++ "\x27"]
       else if !isinst (record.getD p.1) p.2 then
        ["Record " ++ toString index ++ ": field \x27" ++ p.1
          ++ "\x27 has wrong type (got " ++ typeName (typeOf (record.getD p.1))
          ++ ", expected " ++ p.2.reprPy ++ ")"]
       else []) ++ acc) []

/-- The optional-fields loop of `validate_record` (lines 64-68). -/
def checkOptional (index : Nat) (record : JsonMembers) : List String :=
  OPTIONAL_FIELDS.foldr
    (fun p acc =>
      (if record.hasKey p.1 && !(record.getD p.1).beq .null then
        (if !isinst (record.getD p.1) p.2 then
          ["Record " ++ toString index ++ ": field \x27" ++ p.1
            ++ "\x27 has wrong type (got " ++ typeName (typeOf (record.getD p.1)) ++ ")"]
         else [])
       else []) ++ acc) []

/-- The `create_time` format check of `validate_record` (lines 71-74).
`ct` is only a string on the happy path: `len(ct)` raises TypeError for int
and bool values; for a dict, `ct[4]` raises KeyError when there are at least
19 keys and otherwise the `ct[:30]` slice in the message raises TypeError;
for a list both operations are defined and the element comparisons with the
one-character strings are ordinary `==` checks. -/
def createTimeCheck (index : Nat) (record : JsonMembers) : Except PyErr (List String) :=
  if record.hasKey "create_time" && pyTruthy (record.getD "create_time") then
    match record.getD "create_time" with
    | .str s =>
      if s.length ≥ 19 && (s.data.getD 4 ' ' = '-') && (s.data.getD 7 ' ' = '-')
          && (s.data.getD 10 ' ' = 'T') then .ok []
      else .ok ["Record " ++ toString index
                ++ ": create_time not in ISO8601 format: " ++ s.take 30]
    | .int _ => .error (.typeError "object of type \x27int\x27 has no len()")
    | .bool _ => .error (.typeError "object of type \x27bool\x27 has no len()")
    | .arr xs =>
      if xs.length ≥ 19 && (xs.toList.getD 4 .null).beq (.str "-")
          && (xs.toList.getD 7 .null).beq (.str "-")
          && (xs.toList.getD 10 .null).beq (.str "T") then .ok []
      else .ok ["Record " ++ toString index
                ++ ": create_time not in ISO8601 format: "
                ++ pyStr (.arr ((xs.toList.take 30).foldr JsonItems.cons .nil))]
    | .obj fs =>
      if fs.length ≥ 19 then .error (.keyError 4)
      else .error (.typeError "unhashable type: \x27slice\x27")
    | .null => .ok []
  else .ok []

/-- `validate_record` from validate.py: the accumulated error list, or the
Python exception the create_time check raises on non-string truthy values. -/
def validate_record (record : JsonValue) (index : Nat) : Except PyErr (List String) :=
  match record with
  | .obj fs => do
    let ctErrs ← createTimeCheck index fs
    .ok (checkRequired index fs ++ checkOptional index fs ++ ctErrs)
  | _ => .ok ["Record " ++ toString index ++ ": not a dictionary"]

/-- Python `==` on the hashable scalars (`True == 1`). -/
def pyEqScalar : JsonValue → JsonValue → Bool
  | .null, .null => true
  | .bool a, .bool b => a = b
  | .bool a, .int m => (if a then (1 : Int) else 0) = m
  | .int n, .bool b => n = (if b then (1 : Int) else 0)
  | .int n, .int m => n = m
  | .str a, .str b => a = b
  | _, _ => false

/-- `states_found.add(value)`: Python sets deduplicate by `==`, and adding an
unhashable value (list, dict) raises TypeError. -/
def addState (states : List JsonValue) (v : JsonValue) : Except PyErr (List JsonValue) :=
  match v with
  | .arr _ => .error (.typeError "unhashable type: \x27list\x27")
  | .obj _ => .error (.typeError "unhashable type: \x27dict\x27")
  | _ => .ok (if states.any (fun w => pyEqScalar w v) then states else states ++ [v])

/-- `fields_found.update(record.keys())`, kept in first-seen order
(the final report sorts it). -/
def addFields (fields : List String) (ks : List String) : List String :=
  ks.foldl (fun fs k => if fs.contains k then fs else fs ++ [k]) fields

def numKey : JsonValue → Int
  | .bool b => if b then 1 else 0
  | .int n => n
  | _ => 0

/-- Lexicographic code-point order on strings (Python string comparison). -/
def charsLe : List Char → List Char → Bool
  | [], _ => true
  | _ :: _, [] => false
  | a :: as, b :: bs =>
    if a.toNat < b.toNat then true
    else if b.toNat < a.toNat then false
    else charsLe as bs

def strLe (a b : String) : Bool := charsLe a.data b.data

/-- Insertion into a sorted list, then `sorted` itself (ties cannot arise in
the deduplicated inputs sorted here, so any sorting algorithm models
Python's stable sort). -/
def insertLe (le : α → α → Bool) (x : α) : List α → List α
  | [] => [x]
  | y :: ys => if le x y then x :: y :: ys else y :: insertLe le x ys

def insSort (le : α → α → Bool) : List α → List α
  | [] => []
  | x :: xs => insertLe le x (insSort le xs)

/-- `sorted(states_found)`: fine when all states are numbers or all are
strings; comparing mixed kinds (or None with anything) raises TypeError.
(The detail text of that TypeError is not modelled.) -/
def sortStates (states : List JsonValue) : Except PyErr (List JsonValue) :=
  if states.length ≤ 1 then .ok states
  else if states.all (fun v => typeOf v = .boolT || typeOf v = .intT) then
    .ok (insSort (fun a b => decide (numKey a ≤ numKey b)) states)
  else if states.all (fun v => typeOf v = .strT) then
    .ok (insSort (fun a b =>
      match a, b with
      | .str x, .str y => strLe x y
      | _, _ => true) states)
  else .error (.typeError "unorderable state values")

/-- The validation report of validate.py (the `stats` dict). -/
structure VStats where
  total_records : Nat
  records_validated : Nat
  fields_found : List String
  states_found : List JsonValue
  required_fields_present : Bool

def errorCapMarker : String := "... (stopped after 100 errors)"

/-- The full-validation loop of `validate_file` (lines 114-127): per-record
errors are accumulated, fields and states collected from dict records, and
once more than 100 errors have accumulated the truncation marker is appended
and the loop stops. -/
def mainLoop : List JsonValue → Nat → List String → List String → List JsonValue →
    Except PyErr (List String × List String × List JsonValue)
  | [], _, errs, flds, sts => .ok (errs, flds, sts)
  | r :: rest, i, errs, flds, sts => do
    let recErrs ← validate_record r i
    let errs2 := errs ++ recErrs
    let fs2 ←
      match r with
      | .obj fs => do
        let flds2 := addFields flds fs.keys
        let sts2 ← if fs.hasKey "state" then addState sts (fs.getD "state")
                   else .ok sts
        Except.ok (flds2, sts2)
      | _ => Except.ok (flds, sts)
    if errs2.length > 100 then .ok (errs2 ++ [errorCapMarker], fs2.1, fs2.2)
    else mainLoop rest (i + 1) errs2 fs2.1 fs2.2

/-- The sampled-tail loop of `validate_file` (lines 130-135): only the dict
check; past 100 errors it stops, without appending a marker. -/
def tailLoop : List JsonValue → Nat → List String → List String
  | [], _, errs => errs
  | r :: rest, i, errs =>
    match r with
    | .obj _ => tailLoop rest (i + 1) errs
    | _ =>
      let errs2 := errs ++ ["Record " ++ toString i ++ ": not a dictionary"]
      if errs2.length > 100 then errs2 else tailLoop rest (i + 1) errs2

/-- Lines 100-147 of `validate_file`: everything after the file has been
loaded and its root checked to be an array. -/
def validate_data (data : List JsonValue) (sample_size : Nat) :
    Except PyErr (Bool × VStats × List String) :=
  let total := data.length
  let check_count := if sample_size = 0 then total else min sample_size total
  do
  let acc ← mainLoop (data.take check_count) 0 [] [] []
  let errs := if sample_size > 0 && decide (total > sample_size)
              then tailLoop (data.drop sample_size) sample_size acc.1 else acc.1
  let sortedSts ← sortStates acc.2.2
  let reqPresent := REQUIRED_FIELDS.all (fun p => acc.2.1.contains p.1)
  let stats : VStats :=
    ⟨total, check_count, insSort strLe acc.2.1, sortedSts, reqPresent⟩
  .ok (decide (errs.length = 0) && reqPresent, stats, errs)

/-!
Record Store Access. File contents are modelled by their JSON parse outcome:
a filesystem maps a path to `none` (no file), `some none` (bytes that are
not valid JSON), or `some (some v)`. The gzip transport chosen by the `.gz`
suffix is, per the spec, an opaque decompression capability: both branches
read the same modelled outcome.
-/

def FileSystem : Type := List (String × Option JsonValue)

def readParsed (fs : FileSystem) (path : String) : Option (Option JsonValue) :=
  match fs.find? (fun p => p.1 = path) with
  | some p => some p.2
  | none => none

/-- Split a character list at every occurrence of `c` (the segments of
`str.split(c)`). -/
def splitOnChar (c : Char) : List Char → List (List Char)
  | [] => [[]]
  | x :: xs =>
    match splitOnChar c xs with
    | [] => [[]]
    | cur :: rest => if x = c then [] :: cur :: rest else (x :: cur) :: rest

/-- `Path(p).suffix`. -/
def pathSuffix (p : String) : String :=
  let nm := (splitOnChar '/' p.data).getLastD []
  match splitOnChar '.' nm with
  | [] => ""
  | [_] => ""
  | first :: more =>
    if (decide (first = []) && decide (more.length = 1))
        || decide (more.getLastD [] = []) then ""
    else String.mk ('.' :: more.getLastD [])

/-- The errors `load` can fail with. -/
inductive LoadErr where
  | fileNotFound
  | jsonDecodeError
deriving DecidableEq

/-- `load_json` from sanitize.py: `open` (via gzip when the suffix is `.gz`)
raises FileNotFoundError on a missing path, `json.load` raises
JSONDecodeError on undecodable bytes; no root-shape check is performed. -/
def sanitizeLoadJson (fs : FileSystem) (filepath : String) : Except LoadErr JsonValue :=
  match readParsed fs filepath with
  | none => .error .fileNotFound
  | some none => .error .jsonDecodeError
  | some (some v) => if pathSuffix filepath = ".gz" then .ok v else .ok v

/-- `load_json` from validate.py: identical, except that a missing path is
detected by an explicit existence check first. -/
def validateLoadJson (fs : FileSystem) (filepath : String) : Except LoadErr JsonValue :=
  if (readParsed fs filepath).isNone then .error .fileNotFound
  else
    match readParsed fs filepath with
    | none => .error .fileNotFound
    | some none => .error .jsonDecodeError
    | some (some v) => if pathSuffix filepath = ".gz" then .ok v else .ok v

/-- `validate_file` (lines 90-147): load errors are caught and become a
single-message invalid result with an empty stats dict (JSONDecodeError and
the generic handler produce distinct messages, whose Python detail text is
not modelled); a non-array root likewise; then the in-memory validation. -/
def validate_file (fs : FileSystem) (filepath : String) (sample_size : Nat) :
    Except PyErr (Bool × Option VStats × List String) :=
  match validateLoadJson fs filepath with
  | .error .jsonDecodeError => .ok (false, none, ["Invalid JSON: (detail)"])
  | .error .fileNotFound => .ok (false, none, ["Error loading file: (detail)"])
  | .ok root =>
    match root with
    | .arr xs =>
      (validate_data xs.toList sample_size).map (fun t => (t.1, some t.2.1, t.2.2))
    | _ => .ok (false, none, ["JSON root must be an array of records"])


/-- The specification's wording for an email-like token: a contiguous
non-whitespace run containing an `@` and a subsequent `.` (to be compared
with `runHasEmail`, the condition the code's pattern actually imposes). -/
def atThenDot : List Char → Bool
  | [] => false
  | c :: rest => (c = '@' && rest.contains '.') || atThenDot rest

end ErrorReports

/-!
Theorems. Claim theorems are named `C<n>_...`; everything else is a helper.
-/

namespace ErrorReports

theorem hexVal_lt (c : Char) : hexVal c < 16 := by
  unfold hexVal
  split <;> omega

theorem hexParseAux_lt (cs : List Char) : ∀ acc : Nat,
    hexParseAux acc cs < (acc + 1) * 16 ^ cs.length := by
  induction cs with
  | nil => intro acc; simp [hexParseAux]
  | cons c cs ih =>
    intro acc
    rw [hexParseAux]
    calc hexParseAux (acc * 16 + hexVal c) cs
        < (acc * 16 + hexVal c + 1) * 16 ^ cs.length := ih _
      _ ≤ ((acc + 1) * 16) * 16 ^ cs.length := by
          have := hexVal_lt c
          exact Nat.mul_le_mul_right _ (by omega)
      _ = (acc + 1) * 16 ^ (c :: cs).length := by
          rw [List.length_cons, pow_succ]; ring

theorem hexParse_lt (cs : List Char) : hexParse cs < 16 ^ cs.length := by
  have h := hexParseAux_lt cs 0
  simp only [hexParse, Nat.zero_add, Nat.one_mul] at h
  exact h

theorem hexParse_take8_lt (cs : List Char) : hexParse (cs.take 8) < 2 ^ 32 := by
  have h1 := hexParse_lt (cs.take 8)
  have h2 : (16 : Nat) ^ (cs.take 8).length ≤ 16 ^ 8 :=
    Nat.pow_le_pow_right (by norm_num) (by simp)
  calc hexParse (cs.take 8) < 16 ^ (cs.take 8).length := h1
    _ ≤ 16 ^ 8 := h2
    _ = 2 ^ 32 := by norm_num

/-- C1: `hash_id` is a pure deterministic function of its input: repeated
applications agree, `hash_id(None) = None`, and every non-None value maps to
a non-negative integer below 2^32 (the parsed 8-hex-digit SHA-256 prefix). -/
theorem C1_hash_id_deterministic_null_bounded :
    (∀ v : JsonValue, hash_id v = hash_id v) ∧
    hash_id JsonValue.null = JsonValue.null ∧
    ∀ v : JsonValue, v ≠ JsonValue.null →
      ∃ n : Nat, hash_id v = JsonValue.int (Int.ofNat n) ∧ n < 2 ^ 32 := by
  refine ⟨fun _ => rfl, rfl, ?_⟩
  intro v hv
  cases v with
  | null => exact absurd rfl hv
  | bool b => exact ⟨_, rfl, hexParse_take8_lt _⟩
  | int n => exact ⟨_, rfl, hexParse_take8_lt _⟩
  | str s => exact ⟨_, rfl, hexParse_take8_lt _⟩
  | arr xs => exact ⟨_, rfl, hexParse_take8_lt _⟩
  | obj fs => exact ⟨_, rfl, hexParse_take8_lt _⟩

theorem C1_hash_id_deterministic_null_bounded_witness :
    ∃ n : Nat, hash_id (JsonValue.int 7) = JsonValue.int (Int.ofNat n) ∧ n < 2 ^ 32 :=
  C1_hash_id_deterministic_null_bounded.2.2 (JsonValue.int 7)
    (fun h => JsonValue.noConfusion h)

theorem JsonMembers.inductionOnMembers {motive : JsonMembers → Prop} (h0 : motive .nil)
    (h1 : ∀ k v tl, motive tl → motive (.cons k v tl)) : ∀ fs, motive fs
  | .nil => h0
  | .cons k v tl => h1 k v tl (JsonMembers.inductionOnMembers h0 h1 tl)

theorem JsonItems.inductionOnItems {motive : JsonItems → Prop} (h0 : motive .nil)
    (h1 : ∀ v tl, motive tl → motive (.cons v tl)) : ∀ xs, motive xs
  | .nil => h0
  | .cons v tl => h1 v tl (JsonItems.inductionOnItems h0 h1 tl)

namespace JsonMembers

theorem hasKey_eq_isSome_lookup (fs : JsonMembers) (k : String) :
    fs.hasKey k = (fs.lookup k).isSome := by
  induction fs using JsonMembers.inductionOnMembers with
  | h0 => rfl
  | h1 k2 v tl ih =>
    by_cases h : k2 = k <;> simp [hasKey, lookup, h, ih]

theorem hasKey_iff_mem_keys (fs : JsonMembers) (k : String) :
    fs.hasKey k = true ↔ k ∈ fs.keys := by
  induction fs using JsonMembers.inductionOnMembers with
  | h0 => simp [hasKey, keys]
  | h1 k2 v tl ih =>
    by_cases h : k2 = k <;> simp [hasKey, keys, h, ih]
    exact fun h2 => (h h2.symm).elim

theorem lookup_setKey_self (fs : JsonMembers) (k : String) (v : JsonValue) :
    (fs.setKey k v).lookup k = some v := by
  induction fs using JsonMembers.inductionOnMembers with
  | h0 => simp [setKey, lookup]
  | h1 k2 w tl ih =>
    by_cases h : k2 = k <;> simp [setKey, lookup, h, ih]

theorem lookup_setKey_ne (fs : JsonMembers) (k k2 : String) (v : JsonValue)
    (h : k2 ≠ k) : (fs.setKey k v).lookup k2 = fs.lookup k2 := by
  induction fs using JsonMembers.inductionOnMembers with
  | h0 => simp [setKey, lookup, Ne.symm h]
  | h1 k3 w tl ih =>
    by_cases h3 : k3 = k
    · subst h3
      simp [setKey, lookup, Ne.symm h]
    · simp [setKey, lookup, h3, ih]

theorem lookup_popKey_ne (fs : JsonMembers) (k k2 : String)
    (h : k2 ≠ k) : (fs.popKey k).lookup k2 = fs.lookup k2 := by
  induction fs using JsonMembers.inductionOnMembers with
  | h0 => simp [popKey, lookup]
  | h1 k3 w tl ih =>
    by_cases h3 : k3 = k
    · subst h3
      simp [popKey, lookup, Ne.symm h]
    · simp [popKey, lookup, h3, ih]

theorem hasKey_popKey_ne (fs : JsonMembers) (k k2 : String) (h : k2 ≠ k) :
    (fs.popKey k).hasKey k2 = fs.hasKey k2 := by
  rw [hasKey_eq_isSome_lookup, hasKey_eq_isSome_lookup, lookup_popKey_ne fs k k2 h]

theorem keys_popKey_sublist (fs : JsonMembers) (k : String) :
    (fs.popKey k).keys.Sublist fs.keys := by
  induction fs using JsonMembers.inductionOnMembers with
  | h0 => simp [popKey]
  | h1 k2 w tl ih =>
    by_cases h : k2 = k
    · subst h
      simp only [popKey, if_pos rfl, keys]
      exact List.sublist_cons_self k2 tl.keys
    · simp only [popKey, if_neg h, keys]
      exact ih.cons₂ k2

theorem nodup_popKey (fs : JsonMembers) (k : String) (h : fs.NodupKeys) :
    (fs.popKey k).NodupKeys :=
  h.sublist (keys_popKey_sublist fs k)

theorem popKey_not_hasKey (fs : JsonMembers) (k : String) (h : fs.NodupKeys) :
    (fs.popKey k).hasKey k = false := by
  induction fs using JsonMembers.inductionOnMembers with
  | h0 => rfl
  | h1 k2 w tl ih =>
    have h2 : k2 ∉ tl.keys ∧ tl.keys.Nodup := by
      simpa [NodupKeys, keys] using h
    by_cases h3 : k2 = k
    · subst h3
      simp only [popKey, if_pos rfl]
      rw [← Bool.not_eq_true, hasKey_iff_mem_keys]
      exact h2.1
    · simp [popKey, hasKey, h3, ih h2.2]

theorem keys_setKey_of_hasKey (fs : JsonMembers) (k : String) (v : JsonValue)
    (h : fs.hasKey k = true) : (fs.setKey k v).keys = fs.keys := by
  induction fs using JsonMembers.inductionOnMembers with
  | h0 => simp [hasKey] at h
  | h1 k2 w tl ih =>
    by_cases h2 : k2 = k
    · simp [setKey, keys, h2]
    · have h3 : tl.hasKey k = true := by simpa [hasKey, h2] using h
      simp [setKey, keys, h2, ih h3]

end JsonMembers

theorem lookup_redactStep_ne (r : JsonMembers) (f k : String) (h : k ≠ f) :
    (redactStep r f).lookup k = r.lookup k := by
  unfold redactStep
  split
  · exact r.lookup_setKey_ne f k _ h
  · rfl

theorem textFold_lookup_ne (fields : List String) (fs : JsonMembers) (k : String)
    (h : k ∉ fields) :
    (fields.foldl redactStep fs).lookup k = fs.lookup k := by
  induction fields generalizing fs with
  | nil => rfl
  | cons f rest ih =>
    have h1 : k ≠ f := fun h2 => h (h2 ▸ List.mem_cons_self f rest)
    have h2 : k ∉ rest := fun h2 => h (List.mem_cons_of_mem f h2)
    rw [List.foldl_cons, ih _ h2, lookup_redactStep_ne _ _ _ h1]

theorem textFold_hasKey_ne (fields : List String) (fs : JsonMembers) (k : String)
    (h : k ∉ fields) :
    (fields.foldl redactStep fs).hasKey k = fs.hasKey k := by
  rw [JsonMembers.hasKey_eq_isSome_lookup, JsonMembers.hasKey_eq_isSome_lookup,
    textFold_lookup_ne fields fs k h]

/-- C2: `sanitize_record` touches exactly its designated footprint: the
removed fields are absent afterwards, a present `user_id` is replaced by the
hash of its original value, and every key outside the removed, pseudonymized
and redacted-text fields keeps its original value. -/
theorem C2_sanitize_record_footprint (record : JsonMembers)
    (h : record.NodupKeys) :
    (sanitize_record record).hasKey "session_id" = false ∧
    (sanitize_record record).hasKey "history_id" = false ∧
    (record.hasKey "user_id" = true →
      (sanitize_record record).lookup "user_id"
        = some (hash_id (record.getD "user_id"))) ∧
    ∀ k : String, k ∉ ("user_id" :: (FIELDS_TO_REMOVE ++ TEXT_FIELDS)) →
      (sanitize_record record).lookup k = record.lookup k := by
  unfold sanitize_record
  set r1 := if record.hasKey "user_id"
            then record.setKey "user_id" (hash_id (record.getD "user_id"))
            else record with hr1
  have hr1nodup : r1.NodupKeys := by
    rw [hr1]
    split
    · unfold JsonMembers.NodupKeys
      rw [record.keys_setKey_of_hasKey _ _ (by assumption)]
      exact h
    · exact h
  have hfold : FIELDS_TO_REMOVE.foldl removeStep r1
      = (r1.popKey "session_id").popKey "history_id" := rfl
  refine ⟨?_, ?_, ?_, ?_⟩
  · rw [textFold_hasKey_ne _ _ _ (by decide), hfold,
      JsonMembers.hasKey_popKey_ne _ _ _ (by decide)]
    exact r1.popKey_not_hasKey "session_id" hr1nodup
  · rw [textFold_hasKey_ne _ _ _ (by decide), hfold]
    exact (r1.popKey "session_id").popKey_not_hasKey "history_id"
      (r1.nodup_popKey "session_id" hr1nodup)
  · intro hu
    rw [textFold_lookup_ne _ _ _ (by decide), hfold,
      JsonMembers.lookup_popKey_ne _ _ _ (by decide),
      JsonMembers.lookup_popKey_ne _ _ _ (by decide), hr1, if_pos hu]
    exact record.lookup_setKey_self _ _
  · intro k hk
    simp only [List.mem_cons, List.mem_append] at hk
    push_neg at hk
    obtain ⟨hku, hkrm, hktf⟩ := hk
    rw [textFold_lookup_ne _ _ _ hktf, hfold,
      JsonMembers.lookup_popKey_ne _ _ _ (fun h2 => hkrm (by simp [FIELDS_TO_REMOVE, h2])),
      JsonMembers.lookup_popKey_ne _ _ _ (fun h2 => hkrm (by simp [FIELDS_TO_REMOVE, h2])),
      hr1]
    split
    · exact record.lookup_setKey_ne _ _ _ hku
    · rfl

theorem C2_sanitize_record_footprint_witness :
    (sanitize_record (.cons "user_id" (.int 1)
      (.cons "session_id" (.int 2)
        (.cons "tool_id" (.str "t") .nil)))).hasKey "session_id" = false :=
  (C2_sanitize_record_footprint _ (by decide)).1


/-! Scanner equation and length lemmas. -/

theorem matchLead_decomp (p : List Char) : ∀ (l r : List Char),
    matchLead p l = some r → l = p ++ r := by
  induction p with
  | nil =>
    intro l r h
    simp only [matchLead, Option.some.injEq] at h
    simp [h]
  | cons q ps ih =>
    intro l r h
    match l with
    | [] => simp [matchLead] at h
    | c :: cs =>
      by_cases hc : c = q
      · subst hc
        simp only [matchLead, if_pos rfl] at h
        simp [ih cs r h]
      · simp [matchLead, hc] at h

theorem matchLead_append (p : List Char) : ∀ (l r C : List Char),
    matchLead p l = some r → matchLead p (l ++ C) = some (r ++ C) := by
  induction p with
  | nil =>
    intro l r C h
    simp only [matchLead, Option.some.injEq] at h
    simp [matchLead, h]
  | cons q ps ih =>
    intro l r C h
    match l with
    | [] => simp [matchLead] at h
    | c :: cs =>
      by_cases hc : c = q
      · subst hc
        simp only [matchLead, if_pos rfl] at h ⊢
        exact ih cs r C h
      · simp [matchLead, hc] at h

theorem matchLead_space_none (p : List Char) (hp : ∀ c ∈ p, pyIsSpace c = false)
    (sp : Char) (hsp : pyIsSpace sp = true) : ∀ (l C : List Char),
    matchLead p l = none → matchLead p (l ++ sp :: C) = none := by
  induction p with
  | nil => intro l C h; simp [matchLead] at h
  | cons q ps ih =>
    intro l C h
    match l with
    | [] =>
      have hq : pyIsSpace q = false := hp q (List.mem_cons_self q ps)
      have : ¬ sp = q := fun h2 => by rw [h2] at hsp; rw [hsp] at hq; exact Bool.noConfusion hq
      simp [matchLead, this]
    | c :: cs =>
      by_cases hc : c = q
      · subst hc
        simp only [matchLead, if_pos rfl] at h ⊢
        exact ih (fun d hd => hp d (List.mem_cons_of_mem _ hd)) cs C h
      · simp [matchLead, hc]

theorem homeMatch_eq_some (l r : List Char) (h : homeMatch l = some r) :
    ∃ x xs, l = homeLit ++ x :: xs ∧ classChar x = true ∧
      r = (x :: xs).dropWhile classChar := by
  unfold homeMatch at h
  cases hm : matchLead homeLit l with
  | none => rw [hm] at h; exact absurd h (by simp)
  | some t =>
    rw [hm] at h
    match t with
    | [] => simp at h
    | x :: xs =>
      by_cases hx : classChar x
      · simp only [if_pos hx, Option.some.injEq] at h
        exact ⟨x, xs, matchLead_decomp _ _ _ hm, hx, h.symm⟩
      · simp [hx] at h

theorem homeMatch_length (l r : List Char) (h : homeMatch l = some r) :
    r.length + 7 ≤ l.length := by
  obtain ⟨x, xs, hl, hx, hr⟩ := homeMatch_eq_some l r h
  have h1 : r.length ≤ xs.length := by
    rw [hr, List.dropWhile_cons, if_pos hx]
    exact (List.dropWhile_suffix classChar).length_le
  subst hl
  simp only [List.length_append, List.length_cons, homeLit]
  simp only [List.length_cons, List.length_nil]
  omega

theorem userMatch_eq_some : ∀ (l r : List Char), userMatch l = some r →
    ∃ c1 c2 c3 c4 t, l = '/' :: c1 :: c2 :: c3 :: c4 :: t ∧ isU c1 = true ∧
      classChar c1 = true ∧ r <:+ t ∧ r.length + 2 ≤ t.length := by
  intro l r h
  match l with
  | [] => simp [userMatch] at h
  | [_] => simp [userMatch] at h
  | [_, _] => simp [userMatch] at h
  | [_, _, _] => simp [userMatch] at h
  | [_, _, _, _] => simp [userMatch] at h
  | c0 :: c1 :: c2 :: c3 :: c4 :: rest =>
    by_cases h0 : c0 = '/'
    swap
    · simp [userMatch, h0] at h
    subst h0
    by_cases hu : isU c1 = true
    swap
    · simp [userMatch, hu] at h
    by_cases hs : isS c2 = true
    swap
    · simp [userMatch, hs] at h
    by_cases he : isE c3 = true
    swap
    · simp [userMatch, he] at h
    by_cases hr4 : isR c4 = true
    swap
    · simp [userMatch, hr4] at h
    have hcls : classChar c1 = true := by
      rcases (by simpa [isU] using hu : c1 = 'u' ∨ c1 = 'U') with rfl | rfl <;> decide
    match rest with
    | [] => simp [userMatch, hu, hs, he, hr4] at h
    | d :: rest2 =>
      by_cases hd : isS d = true
      · match rest2 with
        | [] => simp [userMatch, hu, hs, he, hr4, hd] at h
        | [e] => simp [userMatch, hu, hs, he, hr4, hd] at h
        | e :: x :: rr =>
          by_cases he2 : e = '/'
          swap
          · simp [userMatch, hu, hs, he, hr4, hd, he2] at h
          subst he2
          by_cases hx : classChar x = true
          swap
          · simp [userMatch, hu, hs, he, hr4, hd, hx] at h
          have hre : r = rr.dropWhile classChar := by
            simp [userMatch, hu, hs, he, hr4, hd, hx] at h
            exact h.symm
          refine ⟨c1, c2, c3, c4, d :: '/' :: x :: rr, rfl, hu, hcls, ?_, ?_⟩
          · rw [hre]
            exact (List.dropWhile_suffix classChar).trans
              (List.suffix_cons_iff.mpr (Or.inr
                (List.suffix_cons_iff.mpr (Or.inr
                  (List.suffix_cons_iff.mpr (Or.inr (List.suffix_refl _)))))))
          · have h2 : r.length ≤ rr.length := by
              rw [hre]; exact (List.dropWhile_suffix classChar).length_le
            simp only [List.length_cons]
            omega
      · by_cases hd2 : d = '/'
        swap
        · simp [userMatch, hu, hs, he, hr4, hd, hd2] at h
        subst hd2
        match rest2 with
        | [] => simp [userMatch, hu, hs, he, hr4, hd] at h
        | x :: rr =>
          by_cases hx : classChar x = true
          swap
          · simp [userMatch, hu, hs, he, hr4, hd, hx] at h
          have hre : r = rr.dropWhile classChar := by
            simp [userMatch, hu, hs, he, hr4, hd, hx] at h
            exact h.symm
          refine ⟨c1, c2, c3, c4, '/' :: x :: rr, rfl, hu, hcls, ?_, ?_⟩
          · rw [hre]
            exact (List.dropWhile_suffix classChar).trans
              (List.suffix_cons_iff.mpr (Or.inr
                (List.suffix_cons_iff.mpr (Or.inr (List.suffix_refl _)))))
          · have h2 : r.length ≤ rr.length := by
              rw [hre]; exact (List.dropWhile_suffix classChar).length_le
            simp only [List.length_cons]
            omega

theorem userMatch_length (l r : List Char) (h : userMatch l = some r) :
    r.length + 7 ≤ l.length := by
  obtain ⟨c1, c2, c3, c4, t, hl, _, _, _, hlen⟩ := userMatch_eq_some l r h
  subst hl
  simp only [List.length_cons]
  omega

theorem subHomeF_congr : ∀ (f1 f2 : Nat) (l : List Char), l.length ≤ f1 → l.length ≤ f2 →
    subHomeF f1 l = subHomeF f2 l := by
  intro f1
  induction f1 with
  | zero =>
    intro f2 l h1 _
    have : l = [] := List.eq_nil_of_length_eq_zero (Nat.le_zero.mp h1)
    subst this
    cases f2 <;> rfl
  | succ f ih =>
    intro f2 l h1 h2
    match l with
    | [] => cases f2 <;> rfl
    | c :: cs =>
      match f2 with
      | 0 => simp at h2
      | g + 1 =>
        simp only [subHomeF]
        simp only [List.length_cons] at h1 h2
        cases hm : homeMatch (c :: cs) with
        | some rest =>
          have hlen := homeMatch_length _ _ hm
          simp only [List.length_cons] at hlen
          show homeRepl ++ subHomeF f rest = homeRepl ++ subHomeF g rest
          congr 1
          exact ih g rest (by omega) (by omega)
        | none =>
          show c :: subHomeF f cs = c :: subHomeF g cs
          congr 1
          exact ih g cs (by omega) (by omega)

theorem subHome_eq_match (c : Char) (cs rest : List Char)
    (h : homeMatch (c :: cs) = some rest) :
    subHome (c :: cs) = homeRepl ++ subHome rest := by
  have hlen := homeMatch_length _ _ h
  simp only [List.length_cons] at hlen
  show subHomeF (c :: cs).length (c :: cs) = _
  rw [List.length_cons]
  simp only [subHomeF, h]
  congr 1
  exact subHomeF_congr cs.length rest.length rest (by omega) le_rfl

theorem subHome_eq_nomatch (c : Char) (cs : List Char)
    (h : homeMatch (c :: cs) = none) :
    subHome (c :: cs) = c :: subHome cs := by
  show subHomeF (c :: cs).length (c :: cs) = _
  rw [List.length_cons]
  simp only [subHomeF, h]
  rfl

theorem subUserF_congr : ∀ (f1 f2 : Nat) (l : List Char), l.length ≤ f1 → l.length ≤ f2 →
    subUserF f1 l = subUserF f2 l := by
  intro f1
  induction f1 with
  | zero =>
    intro f2 l h1 _
    have : l = [] := List.eq_nil_of_length_eq_zero (Nat.le_zero.mp h1)
    subst this
    cases f2 <;> rfl
  | succ f ih =>
    intro f2 l h1 h2
    match l with
    | [] => cases f2 <;> rfl
    | c :: cs =>
      match f2 with
      | 0 => simp at h2
      | g + 1 =>
        simp only [subUserF]
        simp only [List.length_cons] at h1 h2
        cases hm : userMatch (c :: cs) with
        | some rest =>
          have hlen := userMatch_length _ _ hm
          simp only [List.length_cons] at hlen
          show userRepl ++ subUserF f rest = userRepl ++ subUserF g rest
          congr 1
          exact ih g rest (by omega) (by omega)
        | none =>
          show c :: subUserF f cs = c :: subUserF g cs
          congr 1
          exact ih g cs (by omega) (by omega)

theorem subUser_eq_match (c : Char) (cs rest : List Char)
    (h : userMatch (c :: cs) = some rest) :
    subUser (c :: cs) = userRepl ++ subUser rest := by
  have hlen := userMatch_length _ _ h
  simp only [List.length_cons] at hlen
  show subUserF (c :: cs).length (c :: cs) = _
  rw [List.length_cons]
  simp only [subUserF, h]
  congr 1
  exact subUserF_congr cs.length rest.length rest (by omega) le_rfl

theorem subUser_eq_nomatch (c : Char) (cs : List Char)
    (h : userMatch (c :: cs) = none) :
    subUser (c :: cs) = c :: subUser cs := by
  show subUserF (c :: cs).length (c :: cs) = _
  rw [List.length_cons]
  simp only [subUserF, h]
  rfl

theorem subEmailF_congr : ∀ (f1 f2 : Nat) (l : List Char), l.length ≤ f1 → l.length ≤ f2 →
    subEmailF f1 l = subEmailF f2 l := by
  intro f1
  induction f1 with
  | zero =>
    intro f2 l h1 _
    have : l = [] := List.eq_nil_of_length_eq_zero (Nat.le_zero.mp h1)
    subst this
    cases f2 <;> rfl
  | succ f ih =>
    intro f2 l h1 h2
    match l with
    | [] => cases f2 <;> rfl
    | c :: cs =>
      match f2 with
      | 0 => simp at h2
      | g + 1 =>
        simp only [subEmailF]
        simp only [List.length_cons] at h1 h2
        by_cases hsp : pyIsSpace c = true
        · simp only [if_pos hsp]
          rw [ih g cs (by omega) (by omega)]
        · simp only [if_neg hsp]
          have hdw : (cs.dropWhile (fun x => !pyIsSpace x)).length ≤ cs.length :=
            (List.dropWhile_suffix _).length_le
          rw [ih g (cs.dropWhile (fun x => !pyIsSpace x)) (by omega) (by omega)]

theorem subEmail_space (c : Char) (cs : List Char) (h : pyIsSpace c = true) :
    subEmail (c :: cs) = c :: subEmail cs := by
  show subEmailF (c :: cs).length (c :: cs) = _
  rw [List.length_cons]
  simp only [subEmailF]
  rw [if_pos h]
  rfl

theorem subEmail_run (c : Char) (cs : List Char) (h : pyIsSpace c = false) :
    subEmail (c :: cs) =
      (if runHasEmail (c :: cs.takeWhile (fun x => !pyIsSpace x)) then emailRepl
       else c :: cs.takeWhile (fun x => !pyIsSpace x))
        ++ subEmail (cs.dropWhile (fun x => !pyIsSpace x)) := by
  show subEmailF (c :: cs).length (c :: cs) = _
  rw [List.length_cons]
  simp only [subEmailF]
  rw [if_neg (by simp [h])]
  congr 1
  have hdw : (cs.dropWhile (fun x => !pyIsSpace x)).length ≤ cs.length :=
    (List.dropWhile_suffix _).length_le
  exact subEmailF_congr cs.length (cs.dropWhile (fun x => !pyIsSpace x)).length
    (cs.dropWhile (fun x => !pyIsSpace x)) hdw le_rfl


/-! Basic facts about the scanners. -/

theorem subHome_ne_nil (c : Char) (cs : List Char) : subHome (c :: cs) ≠ [] := by
  cases hm : homeMatch (c :: cs) with
  | some rest => rw [subHome_eq_match _ _ _ hm]; simp [homeRepl]
  | none => rw [subHome_eq_nomatch _ _ hm]; simp

theorem subUser_ne_nil (c : Char) (cs : List Char) : subUser (c :: cs) ≠ [] := by
  cases hm : userMatch (c :: cs) with
  | some rest => rw [subUser_eq_match _ _ _ hm]; simp [userRepl]
  | none => rw [subUser_eq_nomatch _ _ hm]; simp

theorem homeMatch_parts (l r : List Char) (h : homeMatch l = some r) :
    ∃ W W2, l = '/' :: 'h' :: 'o' :: 'm' :: 'e' :: '/' :: W ∧ W = W2 ++ r := by
  obtain ⟨x, xs, hl, hx, hr⟩ := homeMatch_eq_some l r h
  obtain ⟨W2, hW2⟩ := List.dropWhile_suffix (l := x :: xs) classChar
  exact ⟨x :: xs, W2, by simpa [homeLit] using hl, by rw [← hr] at hW2; exact hW2.symm⟩

theorem userMatch_parts (l r : List Char) (h : userMatch l = some r) :
    ∃ c1 c2 c3 c4 t W2, l = '/' :: c1 :: c2 :: c3 :: c4 :: t ∧
      classChar c1 = true ∧ t = W2 ++ r := by
  obtain ⟨c1, c2, c3, c4, t, hl, _, hcls, hsuf, _⟩ := userMatch_eq_some l r h
  obtain ⟨W2, hW2⟩ := hsuf
  exact ⟨c1, c2, c3, c4, t, W2, hl, hcls, hW2.symm⟩

theorem noSpace_append (A B : List Char) :
    noSpace (A ++ B) = (noSpace A && noSpace B) := by
  simp [noSpace, List.all_append]

theorem noSpace_of_append_left (A B : List Char) (h : noSpace (A ++ B) = true) :
    noSpace A = true := by
  rw [noSpace_append, Bool.and_eq_true] at h
  exact h.1

theorem noSpace_of_append_right (A B : List Char) (h : noSpace (A ++ B) = true) :
    noSpace B = true := by
  rw [noSpace_append, Bool.and_eq_true] at h
  exact h.2

theorem noSpace_subHome : ∀ (n : Nat) (l : List Char), l.length ≤ n →
    noSpace l = true → noSpace (subHome l) = true := by
  intro n
  induction n with
  | zero =>
    intro l h1 h2
    have : l = [] := List.eq_nil_of_length_eq_zero (Nat.le_zero.mp h1)
    subst this
    exact h2
  | succ m ih =>
    intro l h1 h2
    match l with
    | [] => exact h2
    | c :: cs =>
      simp only [List.length_cons] at h1
      cases hm : homeMatch (c :: cs) with
      | some rest =>
        rw [subHome_eq_match _ _ _ hm, noSpace_append]
        obtain ⟨W, W2, hl, hW⟩ := homeMatch_parts _ _ hm
        have hr : noSpace rest = true := by
          have : noSpace W = true := by
            have := h2
            rw [hl] at this
            simp only [noSpace, List.all_cons, Bool.and_eq_true] at this
            exact this.2.2.2.2.2.2
          rw [hW, noSpace_append, Bool.and_eq_true] at this
          exact this.2
        have hlen := homeMatch_length _ _ hm
        simp only [List.length_cons] at hlen
        rw [ih rest (by omega) hr]
        decide
      | none =>
        rw [subHome_eq_nomatch _ _ hm]
        simp only [noSpace, List.all_cons, Bool.and_eq_true] at h2 ⊢
        exact ⟨h2.1, ih cs (by omega) h2.2⟩

theorem noSpace_subUser : ∀ (n : Nat) (l : List Char), l.length ≤ n →
    noSpace l = true → noSpace (subUser l) = true := by
  intro n
  induction n with
  | zero =>
    intro l h1 h2
    have : l = [] := List.eq_nil_of_length_eq_zero (Nat.le_zero.mp h1)
    subst this
    exact h2
  | succ m ih =>
    intro l h1 h2
    match l with
    | [] => exact h2
    | c :: cs =>
      simp only [List.length_cons] at h1
      cases hm : userMatch (c :: cs) with
      | some rest =>
        rw [subUser_eq_match _ _ _ hm, noSpace_append]
        obtain ⟨c1, c2, c3, c4, t, W2, hl, _, hW⟩ := userMatch_parts _ _ hm
        have hr : noSpace rest = true := by
          have : noSpace t = true := by
            have := h2
            rw [hl] at this
            simp only [noSpace, List.all_cons, Bool.and_eq_true] at this
            exact this.2.2.2.2.2
          rw [hW, noSpace_append, Bool.and_eq_true] at this
          exact this.2
        have hlen := userMatch_length _ _ hm
        simp only [List.length_cons] at hlen
        rw [ih rest (by omega) hr]
        decide
      | none =>
        rw [subUser_eq_nomatch _ _ hm]
        simp only [noSpace, List.all_cons, Bool.and_eq_true] at h2 ⊢
        exact ⟨h2.1, ih cs (by omega) h2.2⟩

/-! The email-pattern predicates are only destroyed, never created, by the
path substitutions: the replacement literals contain no `@` and no `.`. -/

theorem dotNotLast_cons_ne (c : Char) (Y : List Char) (h : ¬ c = '.') :
    dotNotLast (c :: Y) = dotNotLast Y := by
  match Y with
  | [] => rfl
  | y :: ys => simp [dotNotLast, h]

theorem dotNotLast_ne_nil (Z : List Char) (h : dotNotLast Z = true) : Z ≠ [] := by
  intro h2
  subst h2
  exact Bool.noConfusion h

theorem dotNotLast_prepend (W Z : List Char) (h : dotNotLast Z = true) :
    dotNotLast (W ++ Z) = true := by
  induction W with
  | nil => exact h
  | cons w W2 ih =>
    have hne : W2 ++ Z ≠ [] := by
      simp [dotNotLast_ne_nil Z h]
    match hW : W2 ++ Z with
    | [] => exact absurd hW hne
    | a :: as =>
      rw [List.cons_append, hW]
      rw [hW] at ih
      simp [dotNotLast, ih]

theorem hasAtDot_prepend (W Z : List Char) (h : hasAtDot Z = true) :
    hasAtDot (W ++ Z) = true := by
  induction W with
  | nil => exact h
  | cons w W2 ih => simp [hasAtDot, ih]

theorem hasAtDot_suffix (s l : List Char) (h : s <:+ l) (hs : hasAtDot s = true) :
    hasAtDot l = true := by
  obtain ⟨w, rfl⟩ := h
  exact hasAtDot_prepend w s hs

theorem dotNotLast_homeRepl_append (Z : List Char) :
    dotNotLast (homeRepl ++ Z) = dotNotLast Z := by
  match Z with
  | [] => rfl
  | z :: zs => rfl

theorem hasAtDot_homeRepl_append (Z : List Char) :
    hasAtDot (homeRepl ++ Z) = hasAtDot Z := rfl

theorem dotNotLast_userRepl_append (Z : List Char) :
    dotNotLast (userRepl ++ Z) = dotNotLast Z := by
  match Z with
  | [] => rfl
  | z :: zs => rfl

theorem hasAtDot_userRepl_append (Z : List Char) :
    hasAtDot (userRepl ++ Z) = hasAtDot Z := rfl

theorem dotNotLast_subHome : ∀ (n : Nat) (l : List Char), l.length ≤ n →
    dotNotLast (subHome l) = true → dotNotLast l = true := by
  intro n
  induction n with
  | zero =>
    intro l h1 h2
    have : l = [] := List.eq_nil_of_length_eq_zero (Nat.le_zero.mp h1)
    subst this
    exact h2
  | succ m ih =>
    intro l h1 h2
    match l with
    | [] => exact h2
    | c :: cs =>
      simp only [List.length_cons] at h1
      cases hm : homeMatch (c :: cs) with
      | some rest =>
        rw [subHome_eq_match _ _ _ hm, dotNotLast_homeRepl_append] at h2
        have hlen := homeMatch_length _ _ hm
        simp only [List.length_cons] at hlen
        have hr := ih rest (by omega) h2
        obtain ⟨W, W2, hl, hW⟩ := homeMatch_parts _ _ hm
        rw [hl, hW]
        have : ('/' :: 'h' :: 'o' :: 'm' :: 'e' :: '/' :: (W2 ++ rest))
            = ('/' :: 'h' :: 'o' :: 'm' :: 'e' :: '/' :: W2) ++ rest := by simp
        rw [this]
        exact dotNotLast_prepend _ _ hr
      | none =>
        rw [subHome_eq_nomatch _ _ hm] at h2
        by_cases hc : c = '.'
        · subst hc
          cases hcs : subHome cs with
          | nil => rw [hcs] at h2; exact absurd h2 (by decide)
          | cons a as =>
            match cs with
            | [] => exact absurd hcs.symm (List.cons_ne_nil a as)
            | b :: bs => simp [dotNotLast]
        · rw [dotNotLast_cons_ne _ _ hc] at h2
          rw [dotNotLast_cons_ne _ _ hc]
          exact ih cs (by omega) h2

theorem emailAfterAt_subHome : ∀ (n : Nat) (l : List Char), l.length ≤ n →
    emailAfterAt (subHome l) = true → emailAfterAt l = true := by
  intro n
  induction n with
  | zero =>
    intro l h1 h2
    have : l = [] := List.eq_nil_of_length_eq_zero (Nat.le_zero.mp h1)
    subst this
    exact h2
  | succ m ih =>
    intro l h1 h2
    match l with
    | [] => exact h2
    | c :: cs =>
      simp only [List.length_cons] at h1
      cases hm : homeMatch (c :: cs) with
      | some rest =>
        rw [subHome_eq_match _ _ _ hm] at h2
        have h3 : dotNotLast ('h' :: 'o' :: 'm' :: 'e' :: '/' :: '[' :: 'U' :: 'S'
            :: 'E' :: 'R' :: ']' :: subHome rest) = true := by
          simpa [homeRepl, emailAfterAt] using h2
        have h4 : dotNotLast (subHome rest) = true := by
          match hrr : subHome rest with
          | [] => rw [hrr] at h3; exact absurd h3 (by decide)
          | z :: zs => rw [hrr] at h3; exact h3
        have hlen := homeMatch_length _ _ hm
        simp only [List.length_cons] at hlen
        have hr := dotNotLast_subHome rest.length rest le_rfl h4
        obtain ⟨W, W2, hl, hW⟩ := homeMatch_parts _ _ hm
        have hl2 : c :: cs = '/' :: 'h' :: 'o' :: 'm' :: 'e' :: '/' :: (W2 ++ rest) := by
          rw [hl, hW]
        rw [hl2]
        show dotNotLast ('h' :: 'o' :: 'm' :: 'e' :: '/' :: (W2 ++ rest)) = true
        have : ('h' :: 'o' :: 'm' :: 'e' :: '/' :: (W2 ++ rest))
            = ('h' :: 'o' :: 'm' :: 'e' :: '/' :: W2) ++ rest := by simp
        rw [this]
        exact dotNotLast_prepend _ _ hr
      | none =>
        rw [subHome_eq_nomatch _ _ hm] at h2
        show dotNotLast cs = true
        have h3 : dotNotLast (subHome cs) = true := h2
        exact dotNotLast_subHome cs.length cs le_rfl h3

theorem hasAtDot_subHome : ∀ (n : Nat) (l : List Char), l.length ≤ n →
    hasAtDot (subHome l) = true → hasAtDot l = true := by
  intro n
  induction n with
  | zero =>
    intro l h1 h2
    have : l = [] := List.eq_nil_of_length_eq_zero (Nat.le_zero.mp h1)
    subst this
    exact h2
  | succ m ih =>
    intro l h1 h2
    match l with
    | [] => exact h2
    | c :: cs =>
      simp only [List.length_cons] at h1
      cases hm : homeMatch (c :: cs) with
      | some rest =>
        rw [subHome_eq_match _ _ _ hm, hasAtDot_homeRepl_append] at h2
        have hlen := homeMatch_length _ _ hm
        simp only [List.length_cons] at hlen
        have hr := ih rest (by omega) h2
        obtain ⟨x, xs, hl, hx, hrr⟩ := homeMatch_eq_some _ _ hm
        have hsuf : rest <:+ c :: cs := by
          rw [hl]
          exact ((hrr ▸ List.dropWhile_suffix classChar).trans
            (List.suffix_append homeLit (x :: xs)))
        exact hasAtDot_suffix _ _ hsuf hr
      | none =>
        rw [subHome_eq_nomatch _ _ hm] at h2
        simp only [hasAtDot, Bool.or_eq_true, Bool.and_eq_true] at h2 ⊢
        rcases h2 with ⟨hc, hea⟩ | h2
        · exact Or.inl ⟨hc, emailAfterAt_subHome cs.length cs le_rfl hea⟩
        · exact Or.inr (ih cs (by omega) h2)

theorem runHasEmail_subHome (l : List Char)
    (h : runHasEmail (subHome l) = true) : runHasEmail l = true := by
  match l with
  | [] => exact h
  | c :: cs =>
    cases hm : homeMatch (c :: cs) with
    | some rest =>
      rw [subHome_eq_match _ _ _ hm] at h
      have h2 : hasAtDot ('h' :: 'o' :: 'm' :: 'e' :: '/' :: '[' :: 'U' :: 'S'
          :: 'E' :: 'R' :: ']' :: subHome rest) = true := by
        simpa [homeRepl, runHasEmail] using h
      have h3 : hasAtDot (subHome rest) = true := h2
      have hr := hasAtDot_subHome rest.length rest le_rfl h3
      obtain ⟨x, xs, hl, hx, hrr⟩ := homeMatch_eq_some _ _ hm
      have hsuf : rest <:+ xs := by
        have h4 : rest <:+ x :: xs := hrr ▸ List.dropWhile_suffix classChar
        rw [hrr, List.dropWhile_cons, if_pos hx]
        exact List.dropWhile_suffix classChar
      have hl2 : c :: cs = '/' :: ('h' :: 'o' :: 'm' :: 'e' :: '/' :: x :: xs) := by
        simpa [homeLit] using hl
      rw [hl2]
      show hasAtDot ('h' :: 'o' :: 'm' :: 'e' :: '/' :: x :: xs) = true
      exact hasAtDot_suffix _ _ (hsuf.trans (by
        exact (List.suffix_cons_iff.mpr (Or.inr (List.suffix_cons_iff.mpr (Or.inr
          (List.suffix_cons_iff.mpr (Or.inr (List.suffix_cons_iff.mpr (Or.inr
            (List.suffix_cons_iff.mpr (Or.inr (List.suffix_cons_iff.mpr
              (Or.inr (List.suffix_refl xs))))))))))))))) hr
    | none =>
      rw [subHome_eq_nomatch _ _ hm] at h
      show hasAtDot cs = true
      exact hasAtDot_subHome cs.length cs le_rfl h


theorem dotNotLast_subUser : ∀ (n : Nat) (l : List Char), l.length ≤ n →
    dotNotLast (subUser l) = true → dotNotLast l = true := by
  intro n
  induction n with
  | zero =>
    intro l h1 h2
    have : l = [] := List.eq_nil_of_length_eq_zero (Nat.le_zero.mp h1)
    subst this
    exact h2
  | succ m ih =>
    intro l h1 h2
    match l with
    | [] => exact h2
    | c :: cs =>
      simp only [List.length_cons] at h1
      cases hm : userMatch (c :: cs) with
      | some rest =>
        rw [subUser_eq_match _ _ _ hm, dotNotLast_userRepl_append] at h2
        have hlen := userMatch_length _ _ hm
        simp only [List.length_cons] at hlen
        have hr := ih rest (by omega) h2
        obtain ⟨c1, c2, c3, c4, t, W2, hl, _, hW⟩ := userMatch_parts _ _ hm
        rw [hl, hW]
        have : ('/' :: c1 :: c2 :: c3 :: c4 :: (W2 ++ rest))
            = ('/' :: c1 :: c2 :: c3 :: c4 :: W2) ++ rest := by simp
        rw [this]
        exact dotNotLast_prepend _ _ hr
      | none =>
        rw [subUser_eq_nomatch _ _ hm] at h2
        by_cases hc : c = '.'
        · subst hc
          cases hcs : subUser cs with
          | nil => rw [hcs] at h2; exact absurd h2 (by decide)
          | cons a as =>
            match cs with
            | [] => exact absurd hcs.symm (List.cons_ne_nil a as)
            | b :: bs => simp [dotNotLast]
        · rw [dotNotLast_cons_ne _ _ hc] at h2
          rw [dotNotLast_cons_ne _ _ hc]
          exact ih cs (by omega) h2

theorem emailAfterAt_subUser : ∀ (n : Nat) (l : List Char), l.length ≤ n →
    emailAfterAt (subUser l) = true → emailAfterAt l = true := by
  intro n
  induction n with
  | zero =>
    intro l h1 h2
    have : l = [] := List.eq_nil_of_length_eq_zero (Nat.le_zero.mp h1)
    subst this
    exact h2
  | succ m ih =>
    intro l h1 h2
    match l with
    | [] => exact h2
    | c :: cs =>
      simp only [List.length_cons] at h1
      cases hm : userMatch (c :: cs) with
      | some rest =>
        rw [subUser_eq_match _ _ _ hm] at h2
        have h3 : dotNotLast ('u' :: 's' :: 'e' :: 'r' :: '/' :: '[' :: 'U' :: 'S'
            :: 'E' :: 'R' :: ']' :: subUser rest) = true := by
          simpa [userRepl, emailAfterAt] using h2
        have h4 : dotNotLast (subUser rest) = true := by
          match hrr : subUser rest with
          | [] => rw [hrr] at h3; exact absurd h3 (by decide)
          | z :: zs => rw [hrr] at h3; exact h3
        have hr := dotNotLast_subUser rest.length rest le_rfl h4
        obtain ⟨c1, c2, c3, c4, t, W2, hl, _, hW⟩ := userMatch_parts _ _ hm
        have hl2 : c :: cs = '/' :: c1 :: c2 :: c3 :: c4 :: (W2 ++ rest) := by
          rw [hl, hW]
        rw [hl2]
        show dotNotLast (c1 :: c2 :: c3 :: c4 :: (W2 ++ rest)) = true
        have : (c1 :: c2 :: c3 :: c4 :: (W2 ++ rest))
            = (c1 :: c2 :: c3 :: c4 :: W2) ++ rest := by simp
        rw [this]
        exact dotNotLast_prepend _ _ hr
      | none =>
        rw [subUser_eq_nomatch _ _ hm] at h2
        show dotNotLast cs = true
        exact dotNotLast_subUser cs.length cs le_rfl h2

theorem hasAtDot_subUser : ∀ (n : Nat) (l : List Char), l.length ≤ n →
    hasAtDot (subUser l) = true → hasAtDot l = true := by
  intro n
  induction n with
  | zero =>
    intro l h1 h2
    have : l = [] := List.eq_nil_of_length_eq_zero (Nat.le_zero.mp h1)
    subst this
    exact h2
  | succ m ih =>
    intro l h1 h2
    match l with
    | [] => exact h2
    | c :: cs =>
      simp only [List.length_cons] at h1
      cases hm : userMatch (c :: cs) with
      | some rest =>
        rw [subUser_eq_match _ _ _ hm, hasAtDot_userRepl_append] at h2
        have hlen := userMatch_length _ _ hm
        simp only [List.length_cons] at hlen
        have hr := ih rest (by omega) h2
        obtain ⟨c1, c2, c3, c4, t, hl, _, _, hsuf, _⟩ := userMatch_eq_some _ _ hm
        have hsuf2 : rest <:+ c :: cs := by
          rw [hl]
          exact hsuf.trans (List.suffix_append ['/', c1, c2, c3, c4] t)
        exact hasAtDot_suffix _ _ hsuf2 hr
      | none =>
        rw [subUser_eq_nomatch _ _ hm] at h2
        simp only [hasAtDot, Bool.or_eq_true, Bool.and_eq_true] at h2 ⊢
        rcases h2 with ⟨hc, hea⟩ | h2
        · exact Or.inl ⟨hc, emailAfterAt_subUser cs.length cs le_rfl hea⟩
        · exact Or.inr (ih cs (by omega) h2)

theorem runHasEmail_subUser (l : List Char)
    (h : runHasEmail (subUser l) = true) : runHasEmail l = true := by
  match l with
  | [] => exact h
  | c :: cs =>
    cases hm : userMatch (c :: cs) with
    | some rest =>
      rw [subUser_eq_match _ _ _ hm] at h
      have h2 : hasAtDot ('u' :: 's' :: 'e' :: 'r' :: '/' :: '[' :: 'U' :: 'S'
          :: 'E' :: 'R' :: ']' :: subUser rest) = true := by
        simpa [userRepl, runHasEmail] using h
      have h3 : hasAtDot (subUser rest) = true := h2
      have hr := hasAtDot_subUser rest.length rest le_rfl h3
      obtain ⟨c1, c2, c3, c4, t, hl, _, _, hsuf, _⟩ := userMatch_eq_some _ _ hm
      have hl2 : c :: cs = '/' :: (c1 :: c2 :: c3 :: c4 :: t) := hl
      rw [hl2]
      show hasAtDot (c1 :: c2 :: c3 :: c4 :: t) = true
      exact hasAtDot_suffix _ _ (hsuf.trans
        (List.suffix_cons_iff.mpr (Or.inr (List.suffix_cons_iff.mpr (Or.inr
          (List.suffix_cons_iff.mpr (Or.inr (List.suffix_cons_iff.mpr
            (Or.inr (List.suffix_refl t)))))))))) hr
    | none =>
      rw [subUser_eq_nomatch _ _ hm] at h
      show hasAtDot cs = true
      exact hasAtDot_subUser cs.length cs le_rfl h


/-! Failure of the home pattern at a position survives `subHome`:
tracked through the residual literals of `/home/`. -/

theorem homeMatch_none_iff (l : List Char) :
    homeMatch l = none ↔ litThenClass homeLit l = false := by
  unfold homeMatch litThenClass
  cases hm : matchLead homeLit l with
  | none => simp
  | some t =>
    match t with
    | [] => simp
    | x :: xs => by_cases hx : classChar x = true <;> simp [hx]

theorem litThenClass_cons (a : Char) (lit2 : List Char) (c : Char) (X : List Char)
    (h : c = a) : litThenClass (a :: lit2) (c :: X) = litThenClass lit2 X := by
  subst h
  simp [litThenClass, matchLead]

theorem litThenClass_cons_ne (a : Char) (lit2 : List Char) (c : Char) (X : List Char)
    (h : ¬ c = a) : litThenClass (a :: lit2) (c :: X) = false := by
  simp [litThenClass, matchLead, h]

theorem suffix_append_cases (s l1 l2 : List Char) (h : s <:+ l1 ++ l2) :
    s <:+ l2 ∨ ∃ s1, s1 <:+ l1 ∧ s1 ≠ [] ∧ s = s1 ++ l2 := by
  induction l1 with
  | nil => exact Or.inl (by simpa using h)
  | cons a l1 ih =>
    rcases List.suffix_cons_iff.mp (by simpa using h : s <:+ a :: (l1 ++ l2)) with h1 | h1
    · exact Or.inr ⟨a :: l1, List.suffix_refl _, List.cons_ne_nil a l1, by simp [h1]⟩
    · rcases ih h1 with h2 | ⟨s1, hs1, hne, rfl⟩
      · exact Or.inl h2
      · exact Or.inr ⟨s1, List.suffix_cons_iff.mpr (Or.inr hs1), hne, rfl⟩

theorem litThenClass_subHome : ∀ (n : Nat) (l : List Char), l.length ≤ n →
    ∀ lit, lit ∈ homeSuffixes → litThenClass lit l = false →
      litThenClass lit (subHome l) = false := by
  intro n
  induction n with
  | zero =>
    intro l h1 lit _ h3
    have : l = [] := List.eq_nil_of_length_eq_zero (Nat.le_zero.mp h1)
    subst this
    exact h3
  | succ m ih =>
    intro l h1 lit hmem h3
    match l with
    | [] => exact h3
    | c :: cs =>
      simp only [List.length_cons] at h1
      simp only [homeSuffixes, List.mem_cons, List.not_mem_nil, or_false] at hmem
      cases hm : homeMatch (c :: cs) with
      | some rest =>
        rw [subHome_eq_match _ _ _ hm]
        obtain ⟨x, xs, hl, hx, hrr⟩ := homeMatch_eq_some _ _ hm
        have hl2 : c :: cs = '/' :: 'h' :: 'o' :: 'm' :: 'e' :: '/' :: x :: xs := by
          simpa [homeLit] using hl
        rcases hmem with rfl | rfl | rfl | rfl | rfl | rfl | rfl
        · rfl
        · rfl
        · rfl
        · rfl
        · rfl
        · rw [hl2] at h3
          have : litThenClass ['/'] ('/' :: 'h' :: 'o' :: 'm' :: 'e' :: '/' :: x :: xs)
              = true := rfl
          rw [this] at h3
          exact Bool.noConfusion h3
        · rfl
      | none =>
        rw [subHome_eq_nomatch _ _ hm]
        rcases hmem with rfl | rfl | rfl | rfl | rfl | rfl | rfl
        · by_cases hc : c = '/'
          · rw [litThenClass_cons _ _ _ _ hc] at h3 ⊢
            exact ih cs (by omega) _ (by simp [homeSuffixes]) h3
          · exact litThenClass_cons_ne _ _ _ _ hc
        · by_cases hc : c = 'h'
          · rw [litThenClass_cons _ _ _ _ hc] at h3 ⊢
            exact ih cs (by omega) _ (by simp [homeSuffixes]) h3
          · exact litThenClass_cons_ne _ _ _ _ hc
        · by_cases hc : c = 'o'
          · rw [litThenClass_cons _ _ _ _ hc] at h3 ⊢
            exact ih cs (by omega) _ (by simp [homeSuffixes]) h3
          · exact litThenClass_cons_ne _ _ _ _ hc
        · by_cases hc : c = 'm'
          · rw [litThenClass_cons _ _ _ _ hc] at h3 ⊢
            exact ih cs (by omega) _ (by simp [homeSuffixes]) h3
          · exact litThenClass_cons_ne _ _ _ _ hc
        · by_cases hc : c = 'e'
          · rw [litThenClass_cons _ _ _ _ hc] at h3 ⊢
            exact ih cs (by omega) _ (by simp [homeSuffixes]) h3
          · exact litThenClass_cons_ne _ _ _ _ hc
        · by_cases hc : c = '/'
          · rw [litThenClass_cons _ _ _ _ hc] at h3 ⊢
            exact ih cs (by omega) _ (by simp [homeSuffixes]) h3
          · exact litThenClass_cons_ne _ _ _ _ hc
        · exact h3

theorem homeFreeP_suffix {l s : List Char} (h : homeFreeP l) (hs : s <:+ l) :
    homeFreeP s := fun t ht => h t (ht.trans hs)

theorem subHome_of_homeFreeP : ∀ (n : Nat) (l : List Char), l.length ≤ n →
    homeFreeP l → subHome l = l := by
  intro n
  induction n with
  | zero =>
    intro l h1 _
    have : l = [] := List.eq_nil_of_length_eq_zero (Nat.le_zero.mp h1)
    subst this
    rfl
  | succ m ih =>
    intro l h1 h2
    match l with
    | [] => rfl
    | c :: cs =>
      simp only [List.length_cons] at h1
      have hm : homeMatch (c :: cs) = none := h2 _ (List.suffix_refl _)
      rw [subHome_eq_nomatch _ _ hm]
      have : homeFreeP cs :=
        homeFreeP_suffix h2 (List.suffix_cons_iff.mpr (Or.inr (List.suffix_refl cs)))
      rw [ih cs (by omega) this]

theorem homeFreeP_of_fixed : ∀ (n : Nat) (l : List Char), l.length ≤ n →
    subHome l = l → homeFreeP l := by
  intro n
  induction n with
  | zero =>
    intro l h1 _
    have : l = [] := List.eq_nil_of_length_eq_zero (Nat.le_zero.mp h1)
    subst this
    intro s hs
    rw [List.suffix_nil.mp hs]
    rfl
  | succ m ih =>
    intro l h1 hfix
    match l with
    | [] =>
      intro s hs
      rw [List.suffix_nil.mp hs]
      rfl
    | c :: cs =>
      simp only [List.length_cons] at h1
      cases hm : homeMatch (c :: cs) with
      | some rest =>
        rw [subHome_eq_match _ _ _ hm] at hfix
        rw [← hfix] at hm
        exact absurd hm (by rw [show homeMatch (homeRepl ++ subHome rest) = none from rfl]; simp)
      | none =>
        rw [subHome_eq_nomatch _ _ hm] at hfix
        have hfix2 : subHome cs = cs := by
          injection hfix
        intro s hs
        rcases List.suffix_cons_iff.mp hs with rfl | hs2
        · exact hm
        · exact ih cs (by omega) hfix2 s hs2

theorem homeFreeP_subHome : ∀ (n : Nat) (l : List Char), l.length ≤ n →
    homeFreeP (subHome l) := by
  intro n
  induction n with
  | zero =>
    intro l h1
    have : l = [] := List.eq_nil_of_length_eq_zero (Nat.le_zero.mp h1)
    subst this
    intro s hs
    rw [List.suffix_nil.mp hs]
    rfl
  | succ m ih =>
    intro l h1
    match l with
    | [] =>
      intro s hs
      rw [List.suffix_nil.mp hs]
      rfl
    | c :: cs =>
      simp only [List.length_cons] at h1
      cases hm : homeMatch (c :: cs) with
      | some rest =>
        rw [subHome_eq_match _ _ _ hm]
        intro s hs
        have hlen := homeMatch_length _ _ hm
        simp only [List.length_cons] at hlen
        rcases suffix_append_cases s homeRepl (subHome rest) hs with hZ | ⟨s1, hs1, hne, rfl⟩
        · exact ih rest (by omega) s hZ
        · rcases List.suffix_cons_iff.mp hs1 with rfl | hs1
          · rfl
          rcases List.suffix_cons_iff.mp hs1 with rfl | hs1
          · rfl
          rcases List.suffix_cons_iff.mp hs1 with rfl | hs1
          · rfl
          rcases List.suffix_cons_iff.mp hs1 with rfl | hs1
          · rfl
          rcases List.suffix_cons_iff.mp hs1 with rfl | hs1
          · rfl
          rcases List.suffix_cons_iff.mp hs1 with rfl | hs1
          · rfl
          rcases List.suffix_cons_iff.mp hs1 with rfl | hs1
          · rfl
          rcases List.suffix_cons_iff.mp hs1 with rfl | hs1
          · rfl
          rcases List.suffix_cons_iff.mp hs1 with rfl | hs1
          · rfl
          rcases List.suffix_cons_iff.mp hs1 with rfl | hs1
          · rfl
          rcases List.suffix_cons_iff.mp hs1 with rfl | hs1
          · rfl
          rcases List.suffix_cons_iff.mp hs1 with rfl | hs1
          · rfl
          exact absurd (List.suffix_nil.mp hs1) hne
      | none =>
        rw [subHome_eq_nomatch _ _ hm]
        intro s hs
        rcases List.suffix_cons_iff.mp hs with rfl | hs2
        · have h3 : litThenClass homeLit (c :: cs) = false := (homeMatch_none_iff _).mp hm
          have h4 := litThenClass_subHome (c :: cs).length (c :: cs) le_rfl homeLit
            (by simp [homeSuffixes, homeLit]) h3
          rw [subHome_eq_nomatch _ _ hm] at h4
          exact (homeMatch_none_iff _).mpr h4
        · exact ih cs (by omega) s hs2

theorem subHome_idem (l : List Char) : subHome (subHome l) = subHome l :=
  subHome_of_homeFreeP (subHome l).length (subHome l) le_rfl
    (homeFreeP_subHome l.length l le_rfl)


/-! Failure of the user pattern at a position survives `subUser`:
tracked through the residual states of `/users?/[class]`. -/

theorem userMatch_cons_ne_slash (c : Char) (X : List Char) (h : ¬ c = '/') :
    userMatch (c :: X) = none := by
  match X with
  | [] => rfl
  | [a] => rfl
  | [a, b] => rfl
  | [a, b, d] => rfl
  | a :: b :: d :: e :: rest => simp [userMatch, h]

theorem uFrom1_eq (c : Char) (X : List Char) : uFrom 1 (c :: X) = (isU c && uFrom 2 X) := by
  match X with
  | [] => simp [uFrom]
  | [a] => simp [uFrom]
  | [a, b] => simp [uFrom]
  | a :: b :: d :: rest => simp [uFrom, Bool.and_assoc]

theorem uFrom2_eq (c : Char) (X : List Char) : uFrom 2 (c :: X) = (isS c && uFrom 3 X) := by
  match X with
  | [] => simp [uFrom]
  | [a] => simp [uFrom]
  | a :: b :: rest => simp [uFrom, Bool.and_assoc]

theorem uFrom3_eq (c : Char) (X : List Char) : uFrom 3 (c :: X) = (isE c && uFrom 4 X) := by
  match X with
  | [] => simp [uFrom]
  | a :: rest => simp [uFrom, Bool.and_assoc]

theorem uFrom4_eq (c : Char) (X : List Char) : uFrom 4 (c :: X) = (isR c && uFrom 5 X) := by
  simp [uFrom]

theorem uFrom5_eq (c : Char) (X : List Char) : uFrom 5 (c :: X) =
    (if isS c = true then uFrom 6 X else if c = '/' then uFrom 7 X else false) := by
  by_cases hs : isS c = true
  · rw [if_pos hs]
    show uTail2 (c :: X) = uFrom 6 X
    match X with
    | [] => simp [uTail2, uFrom, hs]
    | [a] => simp [uTail2, uFrom, hs]
    | a :: b :: rest => simp [uTail2, uFrom, hs]
  · rw [if_neg hs]
    by_cases hc : c = '/'
    · rw [if_pos hc]
      subst hc
      show uTail2 ('/' :: X) = uFrom 7 X
      match X with
      | [] => simp [uTail2, uFrom, isS]
      | a :: rest => simp [uTail2, uFrom, isS]
    · rw [if_neg hc]
      show uTail2 (c :: X) = false
      match X with
      | [] => simp [uTail2, hs, hc]
      | a :: rest => simp [uTail2, hs, hc]

theorem uFrom6_eq (c : Char) (X : List Char) : uFrom 6 (c :: X) = ((c = '/') && uFrom 7 X) := by
  match X with
  | [] => simp [uFrom]
  | a :: rest => simp [uFrom]

theorem uFrom7_eq (c : Char) (X : List Char) : uFrom 7 (c :: X) = classChar c := by
  simp [uFrom]

theorem userMatch_slash_none_iff (cs : List Char) :
    userMatch ('/' :: cs) = none ↔ uFrom 1 cs = false := by
  match cs with
  | [] => simp [userMatch, uFrom]
  | [a] => simp [userMatch, uFrom]
  | [a, b] => simp [userMatch, uFrom]
  | [a, b, d] => simp [userMatch, uFrom]
  | c1 :: c2 :: c3 :: c4 :: rest =>
    by_cases hu : isU c1 = true
    swap
    · simp [userMatch, uFrom, hu]
    by_cases hs : isS c2 = true
    swap
    · simp [userMatch, uFrom, hu, hs]
    by_cases he : isE c3 = true
    swap
    · simp [userMatch, uFrom, hu, hs, he]
    by_cases hr : isR c4 = true
    swap
    · simp [userMatch, uFrom, hu, hs, he, hr]
    rw [show uFrom 1 (c1 :: c2 :: c3 :: c4 :: rest)
        = (isU c1 && (isS c2 && (isE c3 && (isR c4 && uTail2 rest)))) from by
      simp [uFrom, Bool.and_assoc]]
    simp only [hu, hs, he, hr, Bool.true_and]
    match rest with
    | [] => simp [userMatch, hu, hs, he, hr, uTail2]
    | d :: rest2 =>
      by_cases hd : isS d = true
      · match rest2 with
        | [] => simp [userMatch, hu, hs, he, hr, uTail2, hd]
        | [e] => simp [userMatch, hu, hs, he, hr, uTail2, hd]
        | e :: x :: rr =>
          by_cases hee : e = '/'
          · subst hee
            by_cases hx : classChar x = true <;>
              simp [userMatch, uTail2, hu, hs, he, hr, hd, hx]
          · simp [userMatch, uTail2, hu, hs, he, hr, hd, hee]
      · by_cases hd2 : d = '/'
        · subst hd2
          match rest2 with
          | [] => simp [userMatch, uTail2, hu, hs, he, hr, hd]
          | x :: rr =>
            by_cases hx : classChar x = true <;>
              simp [userMatch, uTail2, hu, hs, he, hr, hd, hx]
        · simp [userMatch, uTail2, hu, hs, he, hr, hd, hd2]

theorem subUser_fail_pres : ∀ (n : Nat) (l : List Char), l.length ≤ n →
    (userMatch l = none → userMatch (subUser l) = none) ∧
    (∀ st, 1 ≤ st → st ≤ 7 → uFrom st l = false → uFrom st (subUser l) = false) := by
  intro n
  induction n with
  | zero =>
    intro l h1
    have : l = [] := List.eq_nil_of_length_eq_zero (Nat.le_zero.mp h1)
    subst this
    exact ⟨fun h => h, fun st _ _ h => h⟩
  | succ m ih =>
    intro l h1
    match l with
    | [] => exact ⟨fun h => h, fun st _ _ h => h⟩
    | c :: cs =>
      simp only [List.length_cons] at h1
      cases hm : userMatch (c :: cs) with
      | some rest =>
        rw [subUser_eq_match _ _ _ hm]
        obtain ⟨c1, c2, c3, c4, t, hl, hu, hcls, _, _⟩ := userMatch_eq_some _ _ hm
        constructor
        · intro hfail
          exact Option.noConfusion hfail
        · intro st h5 h6 hfail
          interval_cases st
          · rfl
          · rfl
          · rfl
          · rfl
          · rw [hl] at hfail
            have h7 : uFrom 5 ('/' :: c1 :: c2 :: c3 :: c4 :: t) = true := by
              show uTail2 ('/' :: c1 :: c2 :: c3 :: c4 :: t) = true
              simp [uTail2, isS, hcls]
            rw [h7] at hfail
            exact Bool.noConfusion hfail
          · rw [hl] at hfail
            have h7 : uFrom 6 ('/' :: c1 :: c2 :: c3 :: c4 :: t) = true := by
              simp [uFrom, hcls]

            rw [h7] at hfail
            exact Bool.noConfusion hfail
          · rfl
      | none =>
        rw [subUser_eq_nomatch _ _ hm]
        have ihcs := ih cs (by omega)
        constructor
        · intro _
          by_cases hc : c = '/'
          · subst hc
            have h3 : uFrom 1 cs = false := (userMatch_slash_none_iff cs).mp hm
            have h4 : uFrom 1 (subUser cs) = false := ihcs.2 1 (by omega) (by omega) h3
            exact (userMatch_slash_none_iff (subUser cs)).mpr h4
          · exact userMatch_cons_ne_slash _ _ hc
        · intro st h5 h6 hfail
          interval_cases st
          · rw [uFrom1_eq] at hfail ⊢
            by_cases hc : isU c = true
            · simp only [hc, Bool.true_and] at hfail ⊢
              exact ihcs.2 2 (by omega) (by omega) hfail
            · simp [hc]
          · rw [uFrom2_eq] at hfail ⊢
            by_cases hc : isS c = true
            · simp only [hc, Bool.true_and] at hfail ⊢
              exact ihcs.2 3 (by omega) (by omega) hfail
            · simp [hc]
          · rw [uFrom3_eq] at hfail ⊢
            by_cases hc : isE c = true
            · simp only [hc, Bool.true_and] at hfail ⊢
              exact ihcs.2 4 (by omega) (by omega) hfail
            · simp [hc]
          · rw [uFrom4_eq] at hfail ⊢
            by_cases hc : isR c = true
            · simp only [hc, Bool.true_and] at hfail ⊢
              exact ihcs.2 5 (by omega) (by omega) hfail
            · simp [hc]
          · rw [uFrom5_eq] at hfail ⊢
            by_cases hs : isS c = true
            · rw [if_pos hs] at hfail ⊢
              exact ihcs.2 6 (by omega) (by omega) hfail
            · rw [if_neg hs] at hfail ⊢
              by_cases hc : c = '/'
              · rw [if_pos hc] at hfail ⊢
                exact ihcs.2 7 (by omega) (by omega) hfail
              · rw [if_neg hc]
          · rw [uFrom6_eq] at hfail ⊢
            by_cases hc : c = '/'
            · subst hc
              rw [show ((('/' : Char) = '/' : Bool) && uFrom 7 cs) = uFrom 7 cs from by
                simp] at hfail
              rw [show ((('/' : Char) = '/' : Bool) && uFrom 7 (subUser cs))
                  = uFrom 7 (subUser cs) from by simp]
              exact ihcs.2 7 (by omega) (by omega) hfail
            · simp [hc]
          · rw [uFrom7_eq] at hfail ⊢
            exact hfail

theorem userFreeP_suffix {l s : List Char} (h : userFreeP l) (hs : s <:+ l) :
    userFreeP s := fun t ht => h t (ht.trans hs)

theorem subUser_of_userFreeP : ∀ (n : Nat) (l : List Char), l.length ≤ n →
    userFreeP l → subUser l = l := by
  intro n
  induction n with
  | zero =>
    intro l h1 _
    have : l = [] := List.eq_nil_of_length_eq_zero (Nat.le_zero.mp h1)
    subst this
    rfl
  | succ m ih =>
    intro l h1 h2
    match l with
    | [] => rfl
    | c :: cs =>
      simp only [List.length_cons] at h1
      have hm : userMatch (c :: cs) = none := h2 _ (List.suffix_refl _)
      rw [subUser_eq_nomatch _ _ hm]
      have : userFreeP cs :=
        userFreeP_suffix h2 (List.suffix_cons_iff.mpr (Or.inr (List.suffix_refl cs)))
      rw [ih cs (by omega) this]

theorem userFreeP_of_fixed : ∀ (n : Nat) (l : List Char), l.length ≤ n →
    subUser l = l → userFreeP l := by
  intro n
  induction n with
  | zero =>
    intro l h1 _
    have : l = [] := List.eq_nil_of_length_eq_zero (Nat.le_zero.mp h1)
    subst this
    intro s hs
    rw [List.suffix_nil.mp hs]
    rfl
  | succ m ih =>
    intro l h1 hfix
    match l with
    | [] =>
      intro s hs
      rw [List.suffix_nil.mp hs]
      rfl
    | c :: cs =>
      simp only [List.length_cons] at h1
      cases hm : userMatch (c :: cs) with
      | some rest =>
        rw [subUser_eq_match _ _ _ hm] at hfix
        rw [← hfix] at hm
        exact absurd hm (by
          rw [show userMatch (userRepl ++ subUser rest) = none from rfl]
          simp)
      | none =>
        rw [subUser_eq_nomatch _ _ hm] at hfix
        have hfix2 : subUser cs = cs := by injection hfix
        intro s hs
        rcases List.suffix_cons_iff.mp hs with rfl | hs2
        · exact hm
        · exact ih cs (by omega) hfix2 s hs2

theorem userFreeP_subUser : ∀ (n : Nat) (l : List Char), l.length ≤ n →
    userFreeP (subUser l) := by
  intro n
  induction n with
  | zero =>
    intro l h1
    have : l = [] := List.eq_nil_of_length_eq_zero (Nat.le_zero.mp h1)
    subst this
    intro s hs
    rw [List.suffix_nil.mp hs]
    rfl
  | succ m ih =>
    intro l h1
    match l with
    | [] =>
      intro s hs
      rw [List.suffix_nil.mp hs]
      rfl
    | c :: cs =>
      simp only [List.length_cons] at h1
      cases hm : userMatch (c :: cs) with
      | some rest =>
        rw [subUser_eq_match _ _ _ hm]
        intro s hs
        have hlen := userMatch_length _ _ hm
        simp only [List.length_cons] at hlen
        rcases suffix_append_cases s userRepl (subUser rest) hs with hZ | ⟨s1, hs1, hne, rfl⟩
        · exact ih rest (by omega) s hZ
        · rcases List.suffix_cons_iff.mp hs1 with rfl | hs1
          · rfl
          rcases List.suffix_cons_iff.mp hs1 with rfl | hs1
          · rfl
          rcases List.suffix_cons_iff.mp hs1 with rfl | hs1
          · rfl
          rcases List.suffix_cons_iff.mp hs1 with rfl | hs1
          · rfl
          rcases List.suffix_cons_iff.mp hs1 with rfl | hs1
          · rfl
          rcases List.suffix_cons_iff.mp hs1 with rfl | hs1
          · rfl
          rcases List.suffix_cons_iff.mp hs1 with rfl | hs1
          · rfl
          rcases List.suffix_cons_iff.mp hs1 with rfl | hs1
          · rfl
          rcases List.suffix_cons_iff.mp hs1 with rfl | hs1
          · exact userMatch_cons_ne_slash _ _ (by decide)
          rcases List.suffix_cons_iff.mp hs1 with rfl | hs1
          · exact userMatch_cons_ne_slash _ _ (by decide)
          rcases List.suffix_cons_iff.mp hs1 with rfl | hs1
          · exact userMatch_cons_ne_slash _ _ (by decide)
          rcases List.suffix_cons_iff.mp hs1 with rfl | hs1
          · exact userMatch_cons_ne_slash _ _ (by decide)
          exact absurd (List.suffix_nil.mp hs1) hne
      | none =>
        rw [subUser_eq_nomatch _ _ hm]
        intro s hs
        rcases List.suffix_cons_iff.mp hs with rfl | hs2
        · have h4 := (subUser_fail_pres (c :: cs).length (c :: cs) le_rfl).1 hm
          rw [subUser_eq_nomatch _ _ hm] at h4
          exact h4
        · exact ih cs (by omega) s hs2

theorem subUser_idem (l : List Char) : subUser (subUser l) = subUser l :=
  subUser_of_userFreeP (subUser l).length (subUser l) le_rfl
    (userFreeP_subUser l.length l le_rfl)


/-! The home pattern cannot be created by `subUser`. -/

theorem litThenClass_subUser : ∀ (n : Nat) (l : List Char), l.length ≤ n →
    ∀ lit, lit ∈ homeSuffixes → litThenClass lit l = false →
      litThenClass lit (subUser l) = false := by
  intro n
  induction n with
  | zero =>
    intro l h1 lit _ h3
    have : l = [] := List.eq_nil_of_length_eq_zero (Nat.le_zero.mp h1)
    subst this
    exact h3
  | succ m ih =>
    intro l h1 lit hmem h3
    match l with
    | [] => exact h3
    | c :: cs =>
      simp only [List.length_cons] at h1
      simp only [homeSuffixes, List.mem_cons, List.not_mem_nil, or_false] at hmem
      cases hm : userMatch (c :: cs) with
      | some rest =>
        rw [subUser_eq_match _ _ _ hm]
        obtain ⟨c1, c2, c3, c4, t, hl, hu, hcls, _, _⟩ := userMatch_eq_some _ _ hm
        rcases hmem with rfl | rfl | rfl | rfl | rfl | rfl | rfl
        · rfl
        · rfl
        · rfl
        · rfl
        · rfl
        · rw [hl] at h3
          have h4 : litThenClass ['/'] ('/' :: c1 :: c2 :: c3 :: c4 :: t) = classChar c1 := by
            simp [litThenClass, matchLead]
          rw [h4, hcls] at h3
          exact Bool.noConfusion h3
        · rfl
      | none =>
        rw [subUser_eq_nomatch _ _ hm]
        rcases hmem with rfl | rfl | rfl | rfl | rfl | rfl | rfl
        · by_cases hc : c = '/'
          · rw [litThenClass_cons _ _ _ _ hc] at h3 ⊢
            exact ih cs (by omega) _ (by simp [homeSuffixes]) h3
          · exact litThenClass_cons_ne _ _ _ _ hc
        · by_cases hc : c = 'h'
          · rw [litThenClass_cons _ _ _ _ hc] at h3 ⊢
            exact ih cs (by omega) _ (by simp [homeSuffixes]) h3
          · exact litThenClass_cons_ne _ _ _ _ hc
        · by_cases hc : c = 'o'
          · rw [litThenClass_cons _ _ _ _ hc] at h3 ⊢
            exact ih cs (by omega) _ (by simp [homeSuffixes]) h3
          · exact litThenClass_cons_ne _ _ _ _ hc
        · by_cases hc : c = 'm'
          · rw [litThenClass_cons _ _ _ _ hc] at h3 ⊢
            exact ih cs (by omega) _ (by simp [homeSuffixes]) h3
          · exact litThenClass_cons_ne _ _ _ _ hc
        · by_cases hc : c = 'e'
          · rw [litThenClass_cons _ _ _ _ hc] at h3 ⊢
            exact ih cs (by omega) _ (by simp [homeSuffixes]) h3
          · exact litThenClass_cons_ne _ _ _ _ hc
        · by_cases hc : c = '/'
          · rw [litThenClass_cons _ _ _ _ hc] at h3 ⊢
            exact ih cs (by omega) _ (by simp [homeSuffixes]) h3
          · exact litThenClass_cons_ne _ _ _ _ hc
        · exact h3

theorem homeFreeP_subUser : ∀ (n : Nat) (l : List Char), l.length ≤ n →
    homeFreeP l → homeFreeP (subUser l) := by
  intro n
  induction n with
  | zero =>
    intro l h1 h2
    have : l = [] := List.eq_nil_of_length_eq_zero (Nat.le_zero.mp h1)
    subst this
    exact h2
  | succ m ih =>
    intro l h1 h2
    match l with
    | [] => exact h2
    | c :: cs =>
      simp only [List.length_cons] at h1
      cases hm : userMatch (c :: cs) with
      | some rest =>
        rw [subUser_eq_match _ _ _ hm]
        intro s hs
        have hlen := userMatch_length _ _ hm
        simp only [List.length_cons] at hlen
        obtain ⟨c1, c2, c3, c4, t, W2, hl, _, hW⟩ := userMatch_parts _ _ hm
        have hrsuf : rest <:+ c :: cs := by
          rw [hl, hW]
          exact ⟨'/' :: c1 :: c2 :: c3 :: c4 :: W2, by simp⟩
        have h2r : homeFreeP rest := homeFreeP_suffix h2 hrsuf
        rcases suffix_append_cases s userRepl (subUser rest) hs with hZ | ⟨s1, hs1, hne, rfl⟩
        · exact ih rest (by omega) h2r s hZ
        · rcases List.suffix_cons_iff.mp hs1 with rfl | hs1
          · rfl
          rcases List.suffix_cons_iff.mp hs1 with rfl | hs1
          · rfl
          rcases List.suffix_cons_iff.mp hs1 with rfl | hs1
          · rfl
          rcases List.suffix_cons_iff.mp hs1 with rfl | hs1
          · rfl
          rcases List.suffix_cons_iff.mp hs1 with rfl | hs1
          · rfl
          rcases List.suffix_cons_iff.mp hs1 with rfl | hs1
          · rfl
          rcases List.suffix_cons_iff.mp hs1 with rfl | hs1
          · rfl
          rcases List.suffix_cons_iff.mp hs1 with rfl | hs1
          · rfl
          rcases List.suffix_cons_iff.mp hs1 with rfl | hs1
          · rfl
          rcases List.suffix_cons_iff.mp hs1 with rfl | hs1
          · rfl
          rcases List.suffix_cons_iff.mp hs1 with rfl | hs1
          · rfl
          rcases List.suffix_cons_iff.mp hs1 with rfl | hs1
          · rfl
          exact absurd (List.suffix_nil.mp hs1) hne
      | none =>
        rw [subUser_eq_nomatch _ _ hm]
        intro s hs
        rcases List.suffix_cons_iff.mp hs with rfl | hs2
        · have h3 : litThenClass homeLit (c :: cs) = false :=
            (homeMatch_none_iff _).mp (h2 _ (List.suffix_refl _))
          have h4 := litThenClass_subUser (c :: cs).length (c :: cs) le_rfl homeLit
            (by simp [homeSuffixes, homeLit]) h3
          rw [subUser_eq_nomatch _ _ hm] at h4
          exact (homeMatch_none_iff _).mpr h4
        · exact ih cs (by omega)
            (homeFreeP_suffix h2 (List.suffix_cons_iff.mpr (Or.inr (List.suffix_refl cs))))
            s hs2

theorem subHome_subUser_fixed (t : List Char) (h : subHome t = t) :
    subHome (subUser t) = subUser t :=
  subHome_of_homeFreeP (subUser t).length (subUser t) le_rfl
    (homeFreeP_subUser t.length t le_rfl (homeFreeP_of_fixed t.length t le_rfl h))


/-! Whitespace interacts with neither path pattern: distributivity of the
path substitutions over a whitespace boundary. -/

theorem classChar_of_space (c : Char) (h : pyIsSpace c = true) :
    classChar c = false := by
  rw [← Bool.not_eq_true]
  intro hc
  simp only [pyIsSpace, Bool.or_eq_true, Bool.and_eq_true, decide_eq_true_eq] at h
  simp only [classChar, Bool.or_eq_true, Bool.and_eq_true, decide_eq_true_eq] at hc
  omega

theorem space_ne (c : Char) (h : pyIsSpace c = true) (d : Char)
    (hd : pyIsSpace d = false) : ¬ c = d := by
  intro he
  rw [he, hd] at h
  exact Bool.noConfusion h

theorem homeLit_no_space : ∀ c ∈ homeLit, pyIsSpace c = false := by decide

theorem homeMatch_cons_ne_slash (c : Char) (X : List Char) (h : ¬ c = '/') :
    homeMatch (c :: X) = none := by
  simp [homeMatch, homeLit, matchLead, h]

theorem dropWhile_class_space_append (X : List Char) (sp : Char)
    (hsp : pyIsSpace sp = true) (B : List Char) :
    (X ++ sp :: B).dropWhile classChar = X.dropWhile classChar ++ sp :: B := by
  rw [List.dropWhile_append]
  by_cases hX : (X.dropWhile classChar).isEmpty
  · rw [if_pos hX, List.isEmpty_iff.mp hX, List.dropWhile_cons,
      if_neg (by rw [classChar_of_space sp hsp]; exact Bool.noConfusion)]
    rfl
  · rw [if_neg hX]

theorem homeMatch_space (A : List Char) (sp : Char) (hsp : pyIsSpace sp = true)
    (B : List Char) :
    homeMatch (A ++ sp :: B) = (homeMatch A).map (fun r => r ++ sp :: B) := by
  unfold homeMatch
  cases hm : matchLead homeLit A with
  | some t =>
    rw [matchLead_append homeLit A t (sp :: B) hm]
    match t with
    | [] => simp [classChar_of_space sp hsp]
    | x :: xs =>
      by_cases hx : classChar x = true
      · have hdw := dropWhile_class_space_append (x :: xs) sp hsp B
        simp only [List.cons_append] at hdw
        simp [hx, hdw]
      · simp [hx]
  | none =>
    rw [matchLead_space_none homeLit homeLit_no_space sp hsp A B hm]
    rfl

theorem subHome_append_space : ∀ (n : Nat) (A : List Char), A.length ≤ n →
    ∀ sp, pyIsSpace sp = true → ∀ B,
    subHome (A ++ sp :: B) = subHome A ++ sp :: subHome B := by
  intro n
  induction n with
  | zero =>
    intro A h1 sp hsp B
    have : A = [] := List.eq_nil_of_length_eq_zero (Nat.le_zero.mp h1)
    subst this
    rw [List.nil_append,
      subHome_eq_nomatch sp B (homeMatch_cons_ne_slash sp B
        (space_ne sp hsp '/' (by decide)))]
    rfl
  | succ m ih =>
    intro A h1 sp hsp B
    match A with
    | [] =>
      rw [List.nil_append,
        subHome_eq_nomatch sp B (homeMatch_cons_ne_slash sp B
          (space_ne sp hsp '/' (by decide)))]
      rfl
    | c :: cs =>
      simp only [List.length_cons] at h1
      cases hm : homeMatch (c :: cs) with
      | some rest =>
        have hm2 : homeMatch (c :: (cs ++ sp :: B)) = some (rest ++ sp :: B) := by
          have h3 := homeMatch_space (c :: cs) sp hsp B
          rw [hm] at h3
          simpa using h3
        rw [List.cons_append, subHome_eq_match _ _ _ hm2, subHome_eq_match _ _ _ hm]
        have hlen := homeMatch_length _ _ hm
        simp only [List.length_cons] at hlen
        rw [ih rest (by omega) sp hsp B]
        simp
      | none =>
        have hm2 : homeMatch (c :: (cs ++ sp :: B)) = none := by
          have h3 := homeMatch_space (c :: cs) sp hsp B
          rw [hm] at h3
          simpa using h3
        rw [List.cons_append, subHome_eq_nomatch _ _ hm2, subHome_eq_nomatch _ _ hm]
        rw [ih cs (by omega) sp hsp B]
        rfl


theorem isS_of_space (sp : Char) (hsp : pyIsSpace sp = true) : isS sp = false := by
  simp [isS, space_ne sp hsp 's' (by decide), space_ne sp hsp 'S' (by decide)]

theorem isU_of_space (sp : Char) (hsp : pyIsSpace sp = true) : isU sp = false := by
  simp [isU, space_ne sp hsp 'u' (by decide), space_ne sp hsp 'U' (by decide)]

theorem isE_of_space (sp : Char) (hsp : pyIsSpace sp = true) : isE sp = false := by
  simp [isE, space_ne sp hsp 'e' (by decide), space_ne sp hsp 'E' (by decide)]

theorem isR_of_space (sp : Char) (hsp : pyIsSpace sp = true) : isR sp = false := by
  simp [isR, space_ne sp hsp 'r' (by decide), space_ne sp hsp 'R' (by decide)]

theorem userMatch_space (A : List Char) (sp : Char) (hsp : pyIsSpace sp = true)
    (B : List Char) :
    userMatch (A ++ sp :: B) = (userMatch A).map (fun r => r ++ sp :: B) := by
  have hslash : ¬ sp = '/' := space_ne sp hsp '/' (by decide)
  match A with
  | [] =>
    rw [List.nil_append, userMatch_cons_ne_slash sp B hslash]
    rfl
  | [a1] =>
    rw [show [a1] ++ sp :: B = a1 :: sp :: B from rfl]
    rw [show userMatch [a1] = none from rfl]
    match B with
    | [] => rfl
    | [b1] => rfl
    | [b1, b2] => rfl
    | b1 :: b2 :: b3 :: brest => simp [userMatch, isU_of_space sp hsp]
  | [a1, a2] =>
    rw [show [a1, a2] ++ sp :: B = a1 :: a2 :: sp :: B from rfl]
    rw [show userMatch [a1, a2] = none from rfl]
    match B with
    | [] => rfl
    | [b1] => rfl
    | b1 :: b2 :: brest => simp [userMatch, isS_of_space sp hsp]
  | [a1, a2, a3] =>
    rw [show [a1, a2, a3] ++ sp :: B = a1 :: a2 :: a3 :: sp :: B from rfl]
    rw [show userMatch [a1, a2, a3] = none from rfl]
    match B with
    | [] => rfl
    | b1 :: brest => simp [userMatch, isE_of_space sp hsp]
  | [a1, a2, a3, a4] =>
    rw [show [a1, a2, a3, a4] ++ sp :: B = a1 :: a2 :: a3 :: a4 :: sp :: B from rfl]
    rw [show userMatch [a1, a2, a3, a4] = none from rfl]
    simp [userMatch, isR_of_space sp hsp]
  | a1 :: a2 :: a3 :: a4 :: a5 :: arest =>
    rw [show (a1 :: a2 :: a3 :: a4 :: a5 :: arest) ++ sp :: B
        = a1 :: a2 :: a3 :: a4 :: a5 :: (arest ++ sp :: B) from rfl]
    by_cases hpre : (a1 = '/' && isU a2 && isS a3 && isE a4 && isR a5) = true
    swap
    · show (if (a1 = '/' && isU a2 && isS a3 && isE a4 && isR a5) = true then
          match arest ++ sp :: B with
          | d :: rest2 =>
            if isS d then
              match rest2 with
              | e :: r :: rr =>
                if e = '/' && classChar r then some ((r :: rr).dropWhile classChar)
                else none
              | _ => none
            else if d = '/' then
              match rest2 with
              | r :: rr =>
                if classChar r then some ((r :: rr).dropWhile classChar) else none
              | _ => none
            else none
          | [] => none
        else none) = Option.map (fun r => r ++ sp :: B)
          (if (a1 = '/' && isU a2 && isS a3 && isE a4 && isR a5) = true then
            match arest with
            | d :: rest2 =>
              if isS d then
                match rest2 with
                | e :: r :: rr =>
                  if e = '/' && classChar r then some ((r :: rr).dropWhile classChar)
                  else none
                | _ => none
              else if d = '/' then
                match rest2 with
                | r :: rr =>
                  if classChar r then some ((r :: rr).dropWhile classChar) else none
                | _ => none
              else none
            | [] => none
          else none)
      rw [if_neg hpre, if_neg hpre]
      rfl
    show (if (a1 = '/' && isU a2 && isS a3 && isE a4 && isR a5) = true then
        match arest ++ sp :: B with
        | d :: rest2 =>
          if isS d then
            match rest2 with
            | e :: r :: rr =>
              if e = '/' && classChar r then some ((r :: rr).dropWhile classChar)
              else none
            | _ => none
          else if d = '/' then
            match rest2 with
            | r :: rr =>
              if classChar r then some ((r :: rr).dropWhile classChar) else none
            | _ => none
          else none
        | [] => none
      else none) = Option.map (fun r => r ++ sp :: B)
        (if (a1 = '/' && isU a2 && isS a3 && isE a4 && isR a5) = true then
          match arest with
          | d :: rest2 =>
            if isS d then
              match rest2 with
              | e :: r :: rr =>
                if e = '/' && classChar r then some ((r :: rr).dropWhile classChar)
                else none
              | _ => none
            else if d = '/' then
              match rest2 with
              | r :: rr =>
                if classChar r then some ((r :: rr).dropWhile classChar) else none
              | _ => none
            else none
          | [] => none
        else none)
    rw [if_pos hpre, if_pos hpre]
    match arest with
    | [] =>
      simp [isS_of_space sp hsp, hslash]
    | d :: arest2 =>
      by_cases hd : isS d = true
      · match arest2 with
        | [] =>
          match B with
          | [] => simp [hd]
          | b1 :: brest => simp [hd, hslash]
        | [e] =>
          by_cases hee : e = '/'
          · subst hee
            simp [hd, classChar_of_space sp hsp]
          · simp [hd, hee]
        | e :: x :: arest3 =>
          by_cases hee : e = '/'
          · subst hee
            by_cases hx : classChar x = true
            · have hdw := dropWhile_class_space_append (x :: arest3) sp hsp B
              simp only [List.cons_append] at hdw
              simp [hd, hx, hdw]
            · simp [hd, hx]
          · simp [hd, hee]
      · by_cases hd2 : d = '/'
        · subst hd2
          match arest2 with
          | [] => simp [hd, classChar_of_space sp hsp]
          | x :: arest3 =>
            by_cases hx : classChar x = true
            · have hdw := dropWhile_class_space_append (x :: arest3) sp hsp B
              simp only [List.cons_append] at hdw
              simp [hd, hx, hdw]
            · simp [hd, hx]
        · simp [hd, hd2]

theorem subUser_append_space : ∀ (n : Nat) (A : List Char), A.length ≤ n →
    ∀ sp, pyIsSpace sp = true → ∀ B,
    subUser (A ++ sp :: B) = subUser A ++ sp :: subUser B := by
  intro n
  induction n with
  | zero =>
    intro A h1 sp hsp B
    have : A = [] := List.eq_nil_of_length_eq_zero (Nat.le_zero.mp h1)
    subst this
    rw [List.nil_append,
      subUser_eq_nomatch sp B (userMatch_cons_ne_slash sp B
        (space_ne sp hsp '/' (by decide)))]
    rfl
  | succ m ih =>
    intro A h1 sp hsp B
    match A with
    | [] =>
      rw [List.nil_append,
        subUser_eq_nomatch sp B (userMatch_cons_ne_slash sp B
          (space_ne sp hsp '/' (by decide)))]
      rfl
    | c :: cs =>
      simp only [List.length_cons] at h1
      cases hm : userMatch (c :: cs) with
      | some rest =>
        have hm2 : userMatch (c :: (cs ++ sp :: B)) = some (rest ++ sp :: B) := by
          have h3 := userMatch_space (c :: cs) sp hsp B
          rw [hm] at h3
          simpa using h3
        rw [List.cons_append, subUser_eq_match _ _ _ hm2, subUser_eq_match _ _ _ hm]
        have hlen := userMatch_length _ _ hm
        simp only [List.length_cons] at hlen
        rw [ih rest (by omega) sp hsp B]
        simp
      | none =>
        have hm2 : userMatch (c :: (cs ++ sp :: B)) = none := by
          have h3 := userMatch_space (c :: cs) sp hsp B
          rw [hm] at h3
          simpa using h3
        rw [List.cons_append, subUser_eq_nomatch _ _ hm2, subUser_eq_nomatch _ _ hm]
        rw [ih cs (by omega) sp hsp B]
        rfl

/-- C10: pseudonymization factors through Python string coercion: for every
non-None value, `hash_id v = hash_id (str v)`, so distinct values with equal
canonical string forms (such as the integer 1 and the string "1") collide. -/
theorem C10_hash_id_factors_through_str :
    (∀ v : JsonValue, v ≠ JsonValue.null →
      hash_id v = hash_id (JsonValue.str (pyStr v))) ∧
    hash_id (JsonValue.int 1) = hash_id (JsonValue.str "1") := by
  constructor
  · intro v hv
    cases v with
    | null => exact absurd rfl hv
    | bool b => rfl
    | int n => rfl
    | str s => rfl
    | arr xs => rfl
    | obj fs => rfl
  · rfl

theorem C10_hash_id_factors_through_str_witness :
    hash_id (JsonValue.int 1) = hash_id (JsonValue.str (pyStr (JsonValue.int 1))) :=
  C10_hash_id_factors_through_str.1 (JsonValue.int 1) (fun h => JsonValue.noConfusion h)


/-! The email substitution: behaviour on whitespace-free runs. -/

theorem noSpace_takeWhile (cs : List Char) :
    noSpace (cs.takeWhile (fun x => !pyIsSpace x)) = true := by
  rw [noSpace, List.all_eq_true]
  intro c hc
  simpa using List.mem_takeWhile_imp hc

theorem takeWhile_nonspace_self : ∀ (cs : List Char), noSpace cs = true →
    cs.takeWhile (fun x => !pyIsSpace x) = cs ∧
    cs.dropWhile (fun x => !pyIsSpace x) = [] := by
  intro cs
  induction cs with
  | nil => intro _; exact ⟨rfl, rfl⟩
  | cons c cs ih =>
    intro h
    rw [noSpace, List.all_cons, Bool.and_eq_true] at h
    have ih2 := ih h.2
    refine ⟨?_, ?_⟩
    · rw [List.takeWhile_cons, if_pos h.1, ih2.1]
    · rw [List.dropWhile_cons, if_pos h.1, ih2.2]

theorem takeWhile_nonspace_append : ∀ (A : List Char), noSpace A = true →
    ∀ (sp : Char), pyIsSpace sp = true → ∀ (B : List Char),
    (A ++ sp :: B).takeWhile (fun x => !pyIsSpace x) = A ∧
    (A ++ sp :: B).dropWhile (fun x => !pyIsSpace x) = sp :: B := by
  intro A
  induction A with
  | nil =>
    intro _ sp hsp B
    constructor
    · rw [List.nil_append, List.takeWhile_cons, if_neg (by simp [hsp])]
    · rw [List.nil_append, List.dropWhile_cons, if_neg (by simp [hsp])]
  | cons c cs ih =>
    intro h sp hsp B
    rw [noSpace, List.all_cons, Bool.and_eq_true] at h
    have ih2 := ih h.2 sp hsp B
    constructor
    · rw [List.cons_append, List.takeWhile_cons, if_pos h.1, ih2.1]
    · rw [List.cons_append, List.dropWhile_cons, if_pos h.1, ih2.2]

theorem takeWhile_nonspace_all_append : ∀ (A : List Char), noSpace A = true →
    ∀ (X : List Char),
    (A ++ X).takeWhile (fun x => !pyIsSpace x) =
      A ++ X.takeWhile (fun x => !pyIsSpace x) := by
  intro A
  induction A with
  | nil => intro _ X; rfl
  | cons c cs ih =>
    intro h X
    rw [noSpace, List.all_cons, Bool.and_eq_true] at h
    rw [List.cons_append, List.takeWhile_cons, if_pos h.1, ih h.2 X]
    rfl

theorem dropWhile_nonspace_head : ∀ (cs : List Char) (d : Char) (D : List Char),
    cs.dropWhile (fun x => !pyIsSpace x) = d :: D → pyIsSpace d = true := by
  intro cs
  induction cs with
  | nil => intro d D h; exact List.noConfusion h
  | cons c cs ih =>
    intro d D h
    rw [List.dropWhile_cons] at h
    by_cases hc : (!pyIsSpace c) = true
    · rw [if_pos hc] at h
      exact ih d D h
    · rw [if_neg hc] at h
      injection h with h1 h2
      subst h1
      simpa using hc

theorem dropWhile_nil_noSpace : ∀ (cs : List Char),
    cs.dropWhile (fun x => !pyIsSpace x) = [] → noSpace cs = true := by
  intro cs
  induction cs with
  | nil => intro _; rfl
  | cons c cs ih =>
    intro h
    rw [List.dropWhile_cons] at h
    by_cases hc : (!pyIsSpace c) = true
    · rw [if_pos hc] at h
      have h2 := ih h
      rw [noSpace] at h2 ⊢
      rw [List.all_cons, h2]
      simpa using hc
    · rw [if_neg hc] at h
      exact List.noConfusion h

theorem subEmail_spacefree (c : Char) (cs : List Char)
    (h : noSpace (c :: cs) = true) :
    subEmail (c :: cs) =
      if runHasEmail (c :: cs) then emailRepl else c :: cs := by
  rw [noSpace, List.all_cons, Bool.and_eq_true] at h
  have hc : pyIsSpace c = false := by simpa using h.1
  have ht := takeWhile_nonspace_self cs h.2
  rw [subEmail_run c cs hc, ht.1, ht.2]
  show (if runHasEmail (c :: cs) then emailRepl else c :: cs) ++ ([] : List Char) = _
  rw [List.append_nil]

theorem subEmail_spacefree_append (c : Char) (cs : List Char)
    (h : noSpace (c :: cs) = true) (sp : Char) (hsp : pyIsSpace sp = true)
    (B : List Char) :
    subEmail ((c :: cs) ++ sp :: B) =
      (if runHasEmail (c :: cs) then emailRepl else c :: cs) ++
        sp :: subEmail B := by
  rw [noSpace, List.all_cons, Bool.and_eq_true] at h
  have hc : pyIsSpace c = false := by simpa using h.1
  have ht := takeWhile_nonspace_append cs h.2 sp hsp B
  rw [List.cons_append, subEmail_run c (cs ++ sp :: B) hc, ht.1, ht.2,
    subEmail_space sp B hsp]

theorem runHasEmail_emailRepl : runHasEmail emailRepl = false := by decide

theorem noSpace_emailRepl : noSpace emailRepl = true := by decide

theorem subEmail_emailRepl : subEmail emailRepl = emailRepl := by decide

theorem subEmail_idemF : ∀ (n : Nat) (l : List Char), l.length ≤ n →
    subEmail (subEmail l) = subEmail l := by
  intro n
  induction n with
  | zero =>
    intro l h1
    have : l = [] := List.eq_nil_of_length_eq_zero (Nat.le_zero.mp h1)
    subst this
    rfl
  | succ m ih =>
    intro l h1
    match l with
    | [] => rfl
    | c :: cs =>
      simp only [List.length_cons] at h1
      by_cases hc : pyIsSpace c = true
      · rw [subEmail_space c cs hc, subEmail_space c (subEmail cs) hc,
          ih cs (by omega)]
      · have hc2 : pyIsSpace c = false := by simpa using hc
        have hA : noSpace (c :: cs.takeWhile (fun x => !pyIsSpace x)) = true := by
          rw [noSpace, List.all_cons, Bool.and_eq_true]
          exact ⟨by simp [hc2], noSpace_takeWhile cs⟩
        rw [subEmail_run c cs hc2]
        cases hD : cs.dropWhile (fun x => !pyIsSpace x) with
        | nil =>
          rw [show subEmail ([] : List Char) = [] from rfl, List.append_nil]
          by_cases hrun :
              runHasEmail (c :: cs.takeWhile (fun x => !pyIsSpace x)) = true
          · rw [if_pos hrun]
            exact subEmail_emailRepl
          · rw [if_neg hrun]
            rw [subEmail_spacefree c (cs.takeWhile (fun x => !pyIsSpace x)) hA,
              if_neg hrun]
        | cons d Dt =>
          have hd : pyIsSpace d = true := dropWhile_nonspace_head cs d Dt hD
          have hlen : Dt.length + 1 ≤ cs.length := by
            have h2 := (@List.dropWhile_suffix Char cs (fun x => !pyIsSpace x)).length_le
            rw [hD] at h2
            simpa using h2
          rw [subEmail_space d Dt hd]
          by_cases hrun :
              runHasEmail (c :: cs.takeWhile (fun x => !pyIsSpace x)) = true
          · rw [if_pos hrun]
            rw [show emailRepl = '[' :: ['E', 'M', 'A', 'I', 'L', ']'] from rfl]
            rw [subEmail_spacefree_append '[' ['E', 'M', 'A', 'I', 'L', ']']
              (by decide) d hd (subEmail Dt), if_neg (by decide),
              ih Dt (by omega)]
          · rw [if_neg hrun]
            rw [subEmail_spacefree_append c (cs.takeWhile (fun x => !pyIsSpace x))
              hA d hd (subEmail Dt), if_neg hrun, ih Dt (by omega)]

theorem subEmail_idem (l : List Char) : subEmail (subEmail l) = subEmail l :=
  subEmail_idemF l.length l le_rfl

/-- Inversion: a whitespace-free-headed text fixed by the email substitution
has an email-free leading run, and its remainder is fixed as well. -/
theorem subEmail_fixed_run (c : Char) (cs : List Char) (hc : pyIsSpace c = false)
    (h : subEmail (c :: cs) = c :: cs) :
    runHasEmail (c :: cs.takeWhile (fun x => !pyIsSpace x)) = false ∧
    subEmail (cs.dropWhile (fun x => !pyIsSpace x)) =
      cs.dropWhile (fun x => !pyIsSpace x) := by
  rw [subEmail_run c cs hc] at h
  by_cases hrun : runHasEmail (c :: cs.takeWhile (fun x => !pyIsSpace x)) = true
  · exfalso
    rw [if_pos hrun] at h
    have h3 := congrArg (List.takeWhile (fun x => !pyIsSpace x)) h
    rw [takeWhile_nonspace_all_append emailRepl (by decide)
      (subEmail (cs.dropWhile (fun x => !pyIsSpace x)))] at h3
    cases hD : cs.dropWhile (fun x => !pyIsSpace x) with
    | nil =>
      rw [hD, show subEmail ([] : List Char) = [] from rfl] at h3
      simp only [List.takeWhile_nil, List.append_nil, List.takeWhile_cons] at h3
      rw [if_pos (by simp [hc])] at h3
      have h4 : runHasEmail emailRepl = true := by rw [h3]; exact hrun
      exact absurd h4 (by decide)
    | cons d Dt =>
      have hd : pyIsSpace d = true := dropWhile_nonspace_head cs d Dt hD
      rw [hD, subEmail_space d Dt hd] at h3
      simp only [List.takeWhile_cons] at h3
      rw [if_neg (by simp [hd]), if_pos (by simp [hc]), List.append_nil] at h3
      have h4 : runHasEmail emailRepl = true := by rw [h3]; exact hrun
      exact absurd h4 (by decide)
  · rw [if_neg hrun] at h
    refine ⟨by simpa using hrun, ?_⟩
    have h2 : (c :: cs.takeWhile (fun x => !pyIsSpace x)) ++
        subEmail (cs.dropWhile (fun x => !pyIsSpace x)) =
        (c :: cs.takeWhile (fun x => !pyIsSpace x)) ++
        cs.dropWhile (fun x => !pyIsSpace x) := by
      rw [h, List.cons_append, List.takeWhile_append_dropWhile]
    exact List.append_cancel_left h2

/-! A text fixed by the email substitution stays email-free after either
path substitution: the path replacements introduce no new email match. -/

theorem subEmail_subHome_fixedF : ∀ (n : Nat) (t : List Char), t.length ≤ n →
    subEmail t = t → subEmail (subHome t) = subHome t := by
  intro n
  induction n with
  | zero =>
    intro t h1 _
    have : t = [] := List.eq_nil_of_length_eq_zero (Nat.le_zero.mp h1)
    subst this
    rfl
  | succ m ih =>
    intro t h1 h2
    match t with
    | [] => rfl
    | c :: cs =>
      simp only [List.length_cons] at h1
      by_cases hc : pyIsSpace c = true
      · have hslash : ¬ c = '/' := space_ne c hc '/' (by decide)
        rw [subEmail_space c cs hc] at h2
        have h3 : subEmail cs = cs := by injection h2 with hx hy
        rw [subHome_eq_nomatch c cs (homeMatch_cons_ne_slash c cs hslash),
          subEmail_space c (subHome cs) hc, ih cs (by omega) h3]
      · have hc2 : pyIsSpace c = false := by simpa using hc
        obtain ⟨hrun, hDfix⟩ := subEmail_fixed_run c cs hc2 h2
        have hA : noSpace (c :: cs.takeWhile (fun x => !pyIsSpace x)) = true := by
          rw [noSpace, List.all_cons, Bool.and_eq_true]
          exact ⟨by simp [hc2], noSpace_takeWhile cs⟩
        cases hD : cs.dropWhile (fun x => !pyIsSpace x) with
        | nil =>
          have hcs : noSpace cs = true := dropWhile_nil_noSpace cs hD
          have htw : cs.takeWhile (fun x => !pyIsSpace x) = cs :=
            (takeWhile_nonspace_self cs hcs).1
          rw [htw] at hrun
          have hall : noSpace (c :: cs) = true := by
            rw [noSpace, List.all_cons, Bool.and_eq_true]
            exact ⟨by simp [hc2], hcs⟩
          cases hSH : subHome (c :: cs) with
          | nil => exact absurd hSH (subHome_ne_nil c cs)
          | cons e es =>
            have hns : noSpace (e :: es) = true := by
              rw [← hSH]
              exact noSpace_subHome (c :: cs).length (c :: cs) le_rfl hall
            have hrun2 : ¬ runHasEmail (e :: es) = true := by
              intro hx
              rw [← hSH] at hx
              have hy := runHasEmail_subHome (c :: cs) hx
              rw [hy] at hrun
              exact Bool.noConfusion hrun
            rw [subEmail_spacefree e es hns, if_neg hrun2]
        | cons d Dt =>
          have hd : pyIsSpace d = true := dropWhile_nonspace_head cs d Dt hD
          have hlen : Dt.length + 1 ≤ cs.length := by
            have hx := (@List.dropWhile_suffix Char cs (fun x => !pyIsSpace x)).length_le
            rw [hD] at hx
            simpa using hx
          have heq : c :: cs =
              (c :: cs.takeWhile (fun x => !pyIsSpace x)) ++ d :: Dt := by
            rw [List.cons_append, ← hD, List.takeWhile_append_dropWhile]
          rw [hD, subEmail_space d Dt hd] at hDfix
          have hDtfix : subEmail Dt = Dt := by injection hDfix with hx hy
          rw [heq, subHome_append_space
            (c :: cs.takeWhile (fun x => !pyIsSpace x)).length _ le_rfl d hd Dt]
          cases hSH : subHome (c :: cs.takeWhile (fun x => !pyIsSpace x)) with
          | nil =>
            exact absurd hSH (subHome_ne_nil c (cs.takeWhile (fun x => !pyIsSpace x)))
          | cons e es =>
            have hns : noSpace (e :: es) = true := by
              rw [← hSH]
              exact noSpace_subHome
                (c :: cs.takeWhile (fun x => !pyIsSpace x)).length _ le_rfl hA
            have hrun2 : ¬ runHasEmail (e :: es) = true := by
              intro hx
              rw [← hSH] at hx
              have hy := runHasEmail_subHome (c :: cs.takeWhile (fun x => !pyIsSpace x)) hx
              rw [hy] at hrun
              exact Bool.noConfusion hrun
            rw [subEmail_spacefree_append e es hns d hd (subHome Dt),
              if_neg hrun2, ih Dt (by omega) hDtfix]

theorem subEmail_subUser_fixedF : ∀ (n : Nat) (t : List Char), t.length ≤ n →
    subEmail t = t → subEmail (subUser t) = subUser t := by
  intro n
  induction n with
  | zero =>
    intro t h1 _
    have : t = [] := List.eq_nil_of_length_eq_zero (Nat.le_zero.mp h1)
    subst this
    rfl
  | succ m ih =>
    intro t h1 h2
    match t with
    | [] => rfl
    | c :: cs =>
      simp only [List.length_cons] at h1
      by_cases hc : pyIsSpace c = true
      · have hslash : ¬ c = '/' := space_ne c hc '/' (by decide)
        rw [subEmail_space c cs hc] at h2
        have h3 : subEmail cs = cs := by injection h2 with hx hy
        rw [subUser_eq_nomatch c cs (userMatch_cons_ne_slash c cs hslash),
          subEmail_space c (subUser cs) hc, ih cs (by omega) h3]
      · have hc2 : pyIsSpace c = false := by simpa using hc
        obtain ⟨hrun, hDfix⟩ := subEmail_fixed_run c cs hc2 h2
        have hA : noSpace (c :: cs.takeWhile (fun x => !pyIsSpace x)) = true := by
          rw [noSpace, List.all_cons, Bool.and_eq_true]
          exact ⟨by simp [hc2], noSpace_takeWhile cs⟩
        cases hD : cs.dropWhile (fun x => !pyIsSpace x) with
        | nil =>
          have hcs : noSpace cs = true := dropWhile_nil_noSpace cs hD
          have htw : cs.takeWhile (fun x => !pyIsSpace x) = cs :=
            (takeWhile_nonspace_self cs hcs).1
          rw [htw] at hrun
          have hall : noSpace (c :: cs) = true := by
            rw [noSpace, List.all_cons, Bool.and_eq_true]
            exact ⟨by simp [hc2], hcs⟩
          cases hSH : subUser (c :: cs) with
          | nil => exact absurd hSH (subUser_ne_nil c cs)
          | cons e es =>
            have hns : noSpace (e :: es) = true := by
              rw [← hSH]
              exact noSpace_subUser (c :: cs).length (c :: cs) le_rfl hall
            have hrun2 : ¬ runHasEmail (e :: es) = true := by
              intro hx
              rw [← hSH] at hx
              have hy := runHasEmail_subUser (c :: cs) hx
              rw [hy] at hrun
              exact Bool.noConfusion hrun
            rw [subEmail_spacefree e es hns, if_neg hrun2]
        | cons d Dt =>
          have hd : pyIsSpace d = true := dropWhile_nonspace_head cs d Dt hD
          have hlen : Dt.length + 1 ≤ cs.length := by
            have hx := (@List.dropWhile_suffix Char cs (fun x => !pyIsSpace x)).length_le
            rw [hD] at hx
            simpa using hx
          have heq : c :: cs =
              (c :: cs.takeWhile (fun x => !pyIsSpace x)) ++ d :: Dt := by
            rw [List.cons_append, ← hD, List.takeWhile_append_dropWhile]
          rw [hD, subEmail_space d Dt hd] at hDfix
          have hDtfix : subEmail Dt = Dt := by injection hDfix with hx hy
          rw [heq, subUser_append_space
            (c :: cs.takeWhile (fun x => !pyIsSpace x)).length _ le_rfl d hd Dt]
          cases hSH : subUser (c :: cs.takeWhile (fun x => !pyIsSpace x)) with
          | nil =>
            exact absurd hSH (subUser_ne_nil c (cs.takeWhile (fun x => !pyIsSpace x)))
          | cons e es =>
            have hns : noSpace (e :: es) = true := by
              rw [← hSH]
              exact noSpace_subUser
                (c :: cs.takeWhile (fun x => !pyIsSpace x)).length _ le_rfl hA
            have hrun2 : ¬ runHasEmail (e :: es) = true := by
              intro hx
              rw [← hSH] at hx
              have hy := runHasEmail_subUser (c :: cs.takeWhile (fun x => !pyIsSpace x)) hx
              rw [hy] at hrun
              exact Bool.noConfusion hrun
            rw [subEmail_spacefree_append e es hns d hd (subUser Dt),
              if_neg hrun2, ih Dt (by omega) hDtfix]

theorem subEmail_subHome_fixed (t : List Char) (h : subEmail t = t) :
    subEmail (subHome t) = subHome t :=
  subEmail_subHome_fixedF t.length t le_rfl h

theorem subEmail_subUser_fixed (t : List Char) (h : subEmail t = t) :
    subEmail (subUser t) = subUser t :=
  subEmail_subUser_fixedF t.length t le_rfl h

theorem redactChars_idem (l : List Char) :
    redactChars (redactChars l) = redactChars l := by
  have hEH : subEmail (subHome (subEmail l)) = subHome (subEmail l) :=
    subEmail_subHome_fixed (subEmail l) (subEmail_idem l)
  have hEX : subEmail (subUser (subHome (subEmail l))) =
      subUser (subHome (subEmail l)) :=
    subEmail_subUser_fixed (subHome (subEmail l)) hEH
  have hHX : subHome (subUser (subHome (subEmail l))) =
      subUser (subHome (subEmail l)) :=
    subHome_subUser_fixed (subHome (subEmail l)) (subHome_idem (subEmail l))
  show subUser (subHome (subEmail (subUser (subHome (subEmail l))))) =
    subUser (subHome (subEmail l))
  rw [hEX, hHX, subUser_idem]

theorem redactString_idem (s : String) :
    redactString (redactString s) = redactString s := by
  show String.mk (redactChars (String.mk (redactChars s.data)).data) =
    String.mk (redactChars s.data)
  show String.mk (redactChars (redactChars s.data)) = String.mk (redactChars s.data)
  rw [redactChars_idem]

/-- `redact_text` is idempotent at the value level. -/
theorem redact_text_idem (t : JsonValue) :
    redact_text (redact_text t) = redact_text t := by
  by_cases ht : pyTruthy t = true
  · have h1 : redact_text t = .str (redactString (pyStr t)) := by
      unfold redact_text
      rw [if_pos ht]
    rw [h1]
    by_cases h2 : pyTruthy (JsonValue.str (redactString (pyStr t))) = true
    · have h3 : redact_text (JsonValue.str (redactString (pyStr t))) =
          .str (redactString (pyStr (JsonValue.str (redactString (pyStr t))))) := by
        unfold redact_text
        rw [if_pos h2]
      rw [h3]
      show JsonValue.str (redactString (redactString (pyStr t))) = _
      rw [redactString_idem]
    · unfold redact_text
      rw [if_neg h2]
  · have h1 : redact_text t = t := by
      unfold redact_text
      rw [if_neg ht]
    rw [h1, h1]

/-- C4: text redaction is idempotent: applying `redact_text` twice yields the
same result as applying it once, both at the value level and on the raw
string; the placeholder text introduced by a first pass is not altered by a
second pass. -/
theorem C4_redact_text_idempotent :
    (∀ t : JsonValue, redact_text (redact_text t) = redact_text t) ∧
    (∀ s : String, redactString (redactString s) = redactString s) ∧
    redactString "[EMAIL] /home/[USER] /user/[USER]" =
      "[EMAIL] /home/[USER] /user/[USER]" :=
  ⟨redact_text_idem, redactString_idem, rfl⟩

/-- C3 counterexample: the run "a@b." contains an `@` with a subsequent `.`,
so the specification's description of an email-like token covers it, yet
`redact_text` leaves it unchanged: the code's pattern also demands a
non-whitespace character after the dot. -/
theorem C3_spec_email_notion_counterexample :
    atThenDot ("a@b.".data) = true ∧ noSpace ("a@b.".data) = true ∧
    redact_text (.str "a@b.") = .str "a@b." := by
  exact ⟨by decide, by decide, rfl⟩

/-- C3 amended: within a maximal whitespace-free run, the email substitution
replaces the whole run with "[EMAIL]" exactly when the run matches
`\S+@\S+\.\S+` (a character before the `@`, and between `@` and `.`, and
after the `.`); the spec's concrete examples do hold, including the
case-insensitive `/users/<name>` form. -/
theorem C3_redaction_behaviour_amended :
    (∀ (c : Char) (cs : List Char), noSpace (c :: cs) = true →
      subEmail (c :: cs) =
        if runHasEmail (c :: cs) then emailRepl else c :: cs) ∧
    redactString "contact me at a.b@example.com" = "contact me at [EMAIL]" ∧
    redactString "/home/alice/output.txt" = "/home/[USER]/output.txt" ∧
    redactString "/users/Bob/out.txt" = "/user/[USER]/out.txt" ∧
    redactString "/Users/alice" = "/user/[USER]" :=
  ⟨subEmail_spacefree, rfl, rfl, rfl, rfl⟩

/-- C3 amended, witness: the run-level characterization applied to the
concrete whitespace-free run "a.b@example.com". -/
theorem C3_redaction_behaviour_amended_witness :
    subEmail ("a.b@example.com".data) =
      if runHasEmail ("a.b@example.com".data) then emailRepl
      else "a.b@example.com".data :=
  C3_redaction_behaviour_amended.1 'a' ".b@example.com".data (by decide)

/-! Dictionary algebra for the idempotence of `sanitize_record`. -/

namespace JsonMembers

theorem popKey_id_of_not_hasKey (fs : JsonMembers) (k : String)
    (h : fs.hasKey k = false) : fs.popKey k = fs := by
  induction fs using JsonMembers.inductionOnMembers with
  | h0 => rfl
  | h1 k2 v tl ih =>
    rw [hasKey] at h
    rw [Bool.or_eq_false_iff] at h
    rw [popKey, if_neg (by simpa using h.1), ih h.2]

theorem setKey_id_of_lookup (fs : JsonMembers) (k : String) (v : JsonValue)
    (h : fs.lookup k = some v) : fs.setKey k v = fs := by
  induction fs using JsonMembers.inductionOnMembers with
  | h0 => exact Option.noConfusion h
  | h1 k2 w tl ih =>
    rw [lookup] at h
    by_cases hk : k2 = k
    · rw [if_pos hk] at h
      injection h with h2
      rw [setKey, if_pos hk, h2]
    · rw [if_neg hk] at h
      rw [setKey, if_neg hk, ih h]

theorem setKey_setKey_same (fs : JsonMembers) (k : String) (v w : JsonValue) :
    (fs.setKey k v).setKey k w = fs.setKey k w := by
  induction fs using JsonMembers.inductionOnMembers with
  | h0 => simp [setKey]
  | h1 k2 u tl ih =>
    by_cases hk : k2 = k
    · rw [setKey, if_pos hk, setKey, if_pos hk, setKey, if_pos hk]
    · rw [setKey, if_neg hk, setKey, if_neg hk, setKey, if_neg hk, ih]

theorem hasKey_setKey_self (fs : JsonMembers) (k : String) (v : JsonValue) :
    (fs.setKey k v).hasKey k = true := by
  rw [hasKey_eq_isSome_lookup, lookup_setKey_self]
  rfl

theorem hasKey_setKey_ne (fs : JsonMembers) (k k2 : String) (v : JsonValue)
    (h : k2 ≠ k) : (fs.setKey k v).hasKey k2 = fs.hasKey k2 := by
  rw [hasKey_eq_isSome_lookup, hasKey_eq_isSome_lookup, lookup_setKey_ne fs k k2 v h]

theorem getD_setKey_self (fs : JsonMembers) (k : String) (v : JsonValue) :
    (fs.setKey k v).getD k = v := by
  rw [getD, lookup_setKey_self]
  rfl

theorem getD_setKey_ne (fs : JsonMembers) (k k2 : String) (v : JsonValue)
    (h : k2 ≠ k) : (fs.setKey k v).getD k2 = fs.getD k2 := by
  rw [getD, getD, lookup_setKey_ne fs k k2 v h]

theorem setKey_comm (fs : JsonMembers) (f g : String) (v w : JsonValue)
    (hfg : ¬ f = g) (hf : fs.hasKey f = true) :
    (fs.setKey f v).setKey g w = (fs.setKey g w).setKey f v := by
  induction fs using JsonMembers.inductionOnMembers with
  | h0 => rw [hasKey] at hf; exact Bool.noConfusion hf
  | h1 k u tl ih =>
    by_cases hkf : k = f
    · have hkg : ¬ k = g := by rw [hkf]; exact hfg
      rw [setKey, if_pos hkf, setKey, if_neg hkg, setKey, if_neg hkg,
        setKey, if_pos hkf]
    · rw [hasKey, Bool.or_eq_true] at hf
      have hf2 : tl.hasKey f = true := by
        cases hf with
        | inl h2 => exact absurd (by simpa using h2) hkf
        | inr h2 => exact h2
      by_cases hkg : k = g
      · rw [setKey, if_neg hkf, setKey, if_pos hkg, setKey, if_pos hkg,
          setKey, if_neg hkf]
      · rw [setKey, if_neg hkf, setKey, if_neg hkg, setKey, if_neg hkg,
          setKey, if_neg hkf, ih hf2]

end JsonMembers

theorem redactStep_eq_pos (r : JsonMembers) (f : String)
    (h : (r.hasKey f && pyTruthy (r.getD f)) = true) :
    redactStep r f = r.setKey f (redact_text (r.getD f)) := by
  unfold redactStep
  rw [if_pos h]

theorem redactStep_eq_neg (r : JsonMembers) (f : String)
    (h : ¬ (r.hasKey f && pyTruthy (r.getD f)) = true) :
    redactStep r f = r := by
  unfold redactStep
  rw [if_neg h]

theorem redactStep_idem (r : JsonMembers) (f : String) :
    redactStep (redactStep r f) f = redactStep r f := by
  by_cases hc : (r.hasKey f && pyTruthy (r.getD f)) = true
  · rw [redactStep_eq_pos r f hc]
    rw [Bool.and_eq_true] at hc
    by_cases ht : pyTruthy (redact_text (r.getD f)) = true
    · rw [redactStep_eq_pos _ f (by
        rw [JsonMembers.hasKey_setKey_self, JsonMembers.getD_setKey_self, ht]
        rfl)]
      rw [JsonMembers.getD_setKey_self, redact_text_idem,
        JsonMembers.setKey_setKey_same]
    · rw [redactStep_eq_neg _ f (by
        rw [JsonMembers.hasKey_setKey_self, JsonMembers.getD_setKey_self]
        simpa using ht)]
  · rw [redactStep_eq_neg r f hc, redactStep_eq_neg r f hc]

theorem redactStep_comm (r : JsonMembers) (f g : String) (hfg : ¬ f = g) :
    redactStep (redactStep r f) g = redactStep (redactStep r g) f := by
  have hgf : ¬ g = f := fun h => hfg h.symm
  by_cases hf : (r.hasKey f && pyTruthy (r.getD f)) = true
  · by_cases hg : (r.hasKey g && pyTruthy (r.getD g)) = true
    · rw [redactStep_eq_pos r f hf, redactStep_eq_pos r g hg]
      rw [redactStep_eq_pos _ g (by
        rw [JsonMembers.hasKey_setKey_ne r f g _ hgf,
          JsonMembers.getD_setKey_ne r f g _ hgf]
        exact hg)]
      rw [redactStep_eq_pos _ f (by
        rw [JsonMembers.hasKey_setKey_ne r g f _ hfg,
          JsonMembers.getD_setKey_ne r g f _ hfg]
        exact hf)]
      rw [JsonMembers.getD_setKey_ne r f g _ hgf,
        JsonMembers.getD_setKey_ne r g f _ hfg]
      rw [Bool.and_eq_true] at hf
      exact JsonMembers.setKey_comm r f g _ _ hfg hf.1
    · rw [redactStep_eq_pos r f hf, redactStep_eq_neg r g hg]
      rw [redactStep_eq_neg _ g (by
        rw [JsonMembers.hasKey_setKey_ne r f g _ hgf,
          JsonMembers.getD_setKey_ne r f g _ hgf]
        exact hg)]
      rw [redactStep_eq_pos r f hf]
  · by_cases hg : (r.hasKey g && pyTruthy (r.getD g)) = true
    · rw [redactStep_eq_neg r f hf, redactStep_eq_pos r g hg]
      rw [redactStep_eq_neg _ f (by
        rw [JsonMembers.hasKey_setKey_ne r g f _ hfg,
          JsonMembers.getD_setKey_ne r g f _ hfg]
        exact hf)]
    · rw [redactStep_eq_neg r f hf, redactStep_eq_neg r g hg,
        redactStep_eq_neg r f hf]

theorem redactStep_foldl_comm : ∀ (fs : List String) (Y : JsonMembers) (f : String),
    f ∉ fs →
    redactStep (List.foldl redactStep Y fs) f =
      List.foldl redactStep (redactStep Y f) fs := by
  intro fs
  induction fs with
  | nil => intro Y f _; rfl
  | cons g rest ih =>
    intro Y f hf
    rw [List.mem_cons] at hf
    push_neg at hf
    rw [List.foldl_cons, List.foldl_cons, ih (redactStep Y g) f hf.2,
      redactStep_comm Y g f (fun h => hf.1 h.symm)]

theorem foldl_redactStep_idem : ∀ (fs : List String), fs.Nodup →
    ∀ (X : JsonMembers),
    List.foldl redactStep (List.foldl redactStep X fs) fs =
      List.foldl redactStep X fs := by
  intro fs
  induction fs with
  | nil => intro _ X; rfl
  | cons f rest ih =>
    intro hnd X
    rw [List.nodup_cons] at hnd
    rw [List.foldl_cons, List.foldl_cons,
      redactStep_foldl_comm rest (redactStep X f) f hnd.1,
      redactStep_idem, ih hnd.2]

/-- The `user_id` branch of `sanitize_record` is the identity when the key is
absent or maps to `None` (since `hash_id None = None`). -/
theorem userBranch_id (q : JsonMembers)
    (hq : q.lookup "user_id" = none ∨ q.lookup "user_id" = some JsonValue.null) :
    (if q.hasKey "user_id"
     then q.setKey "user_id" (hash_id (q.getD "user_id"))
     else q) = q := by
  cases hq with
  | inl h2 =>
    rw [if_neg (by rw [JsonMembers.hasKey_eq_isSome_lookup, h2]; simp)]
  | inr h2 =>
    by_cases hk : q.hasKey "user_id" = true
    · rw [if_pos hk]
      have h3 : q.getD "user_id" = JsonValue.null := by
        rw [JsonMembers.getD, h2]
        rfl
      rw [h3]
      exact q.setKey_id_of_lookup "user_id" (hash_id JsonValue.null)
        (by rw [h2]; rfl)
    · rw [if_neg hk]

/-- A record already in sanitized shape is a fixed point of
`sanitize_record`. -/
theorem sanitize_fixed_of (X : JsonMembers)
    (hu : X.lookup "user_id" = none ∨ X.lookup "user_id" = some JsonValue.null)
    (hs : X.hasKey "session_id" = false)
    (hh : X.hasKey "history_id" = false)
    (hr : TEXT_FIELDS.foldl redactStep X = X) :
    sanitize_record X = X := by
  unfold sanitize_record
  rw [userBranch_id X hu]
  have h2 : FIELDS_TO_REMOVE.foldl removeStep X = X := by
    show (X.popKey "session_id").popKey "history_id" = X
    rw [X.popKey_id_of_not_hasKey "session_id" hs,
      X.popKey_id_of_not_hasKey "history_id" hh]
  show List.foldl redactStep (List.foldl removeStep X FIELDS_TO_REMOVE)
    TEXT_FIELDS = X
  rw [h2, hr]

/-- C5 counterexample: a record carrying `user_id = 1` is not a fixed point
of `sanitize_record`: the first pass stores `hash_id 1 = 1803989619`, and the
second pass hashes that pseudonym again to `3809438353`. -/
theorem C5_sanitize_not_idempotent_counterexample :
    (sanitize_record (JsonMembers.cons "user_id" (JsonValue.int 1)
        JsonMembers.nil)).lookup "user_id"
      = some (JsonValue.int 1803989619) ∧
    (sanitize_record (sanitize_record (JsonMembers.cons "user_id"
        (JsonValue.int 1) JsonMembers.nil))).lookup "user_id"
      = some (JsonValue.int 3809438353) ∧
    sanitize_record (sanitize_record (JsonMembers.cons "user_id"
        (JsonValue.int 1) JsonMembers.nil))
      ≠ sanitize_record (JsonMembers.cons "user_id" (JsonValue.int 1)
        JsonMembers.nil) := by
  refine ⟨rfl, rfl, ?_⟩
  intro h
  have ha : (sanitize_record (JsonMembers.cons "user_id" (JsonValue.int 1)
      JsonMembers.nil)).lookup "user_id" = some (JsonValue.int 1803989619) := rfl
  have hb : (sanitize_record (sanitize_record (JsonMembers.cons "user_id"
      (JsonValue.int 1) JsonMembers.nil))).lookup "user_id"
      = some (JsonValue.int 3809438353) := rfl
  rw [h, ha] at hb
  injection hb with hb2
  injection hb2 with hb3
  exact absurd hb3 (by decide)

/-- C5 amended: `sanitize_record` is idempotent exactly on the non-pseudonym
part: for every well-formed record whose `user_id` is absent or `None`,
applying it twice equals applying it once (text redaction, field removal and
the untouched fields are all stable; a present non-null `user_id` is re-hashed
by a second pass, as the counterexample shows). -/
theorem C5_sanitize_record_idempotent_amended (r : JsonMembers)
    (h : r.NodupKeys)
    (hu : r.lookup "user_id" = none ∨ r.lookup "user_id" = some JsonValue.null) :
    sanitize_record (sanitize_record r) = sanitize_record r := by
  have h1 : sanitize_record r =
      TEXT_FIELDS.foldl redactStep
        ((r.popKey "session_id").popKey "history_id") := by
    unfold sanitize_record
    rw [userBranch_id r hu]
    show List.foldl redactStep (List.foldl removeStep r FIELDS_TO_REMOVE)
      TEXT_FIELDS = _
    rfl
  rw [h1]
  apply sanitize_fixed_of
  · rw [textFold_lookup_ne _ _ _ (by decide),
      JsonMembers.lookup_popKey_ne _ _ _ (by decide),
      JsonMembers.lookup_popKey_ne _ _ _ (by decide)]
    exact hu
  · rw [textFold_hasKey_ne _ _ _ (by decide),
      JsonMembers.hasKey_popKey_ne _ _ _ (by decide)]
    exact r.popKey_not_hasKey "session_id" h
  · rw [textFold_hasKey_ne _ _ _ (by decide)]
    exact (r.popKey "session_id").popKey_not_hasKey "history_id"
      (r.nodup_popKey "session_id" h)
  · exact foldl_redactStep_idem TEXT_FIELDS (by decide) _

/-- C5 amended, witness: the idempotence applied to a concrete record without
a `user_id` field. -/
theorem C5_sanitize_record_idempotent_amended_witness :
    sanitize_record (sanitize_record (JsonMembers.cons "tool_id"
      (JsonValue.str "t") (JsonMembers.cons "command_line"
        (JsonValue.str "run a@b.cd x") JsonMembers.nil))) =
    sanitize_record (JsonMembers.cons "tool_id" (JsonValue.str "t")
      (JsonMembers.cons "command_line" (JsonValue.str "run a@b.cd x")
        JsonMembers.nil)) :=
  C5_sanitize_record_idempotent_amended _ (by decide) (Or.inl rfl)

/-- C6: the claim fails in the code: a record whose `create_time` is a truthy
non-string makes `validate_record` raise `TypeError` at `len(ct)` (line 73 of
validate.py), and `validate_file` does not catch it — the exception escapes
instead of being recorded in the error list. -/
theorem C6_validator_crash_on_nonstring_create_time :
    validate_data [JsonValue.obj (JsonMembers.cons "create_time"
        (JsonValue.int 1) JsonMembers.nil)] 0
      = .error (.typeError "object of type 'int' has no len()") ∧
    validate_file [("data.json", some (JsonValue.arr (JsonItems.cons
        (JsonValue.obj (JsonMembers.cons "create_time" (JsonValue.int 1)
          JsonMembers.nil)) JsonItems.nil)))] "data.json" 0
      = .error (.typeError "object of type 'int' has no len()") :=
  ⟨rfl, rfl⟩

/-- C9 counterexample: a parsed file whose JSON root is a dict is returned
as-is by both loaders — `load` itself raises no error on a non-array root;
the root-shape check lives in `validate_file`, after the load. -/
theorem C9_load_no_root_check_counterexample :
    sanitizeLoadJson [("d.json", some (JsonValue.obj JsonMembers.nil))] "d.json"
      = .ok (JsonValue.obj JsonMembers.nil) ∧
    validateLoadJson [("d.json", some (JsonValue.obj JsonMembers.nil))] "d.json"
      = .ok (JsonValue.obj JsonMembers.nil) :=
  ⟨rfl, rfl⟩

/-- C9 amended: both loaders fail with FileNotFoundError exactly when the
path does not exist and with JSONDecodeError exactly when the bytes do not
parse; a successfully parsed value is returned whatever its root shape
(transparently through the `.gz` branch); the array-root requirement is
enforced separately by `validate_file`, as a reported message rather than a
load error. -/
theorem C9_load_semantics_amended :
    (∀ (fs : FileSystem) (p : String), readParsed fs p = none →
        sanitizeLoadJson fs p = .error .fileNotFound ∧
        validateLoadJson fs p = .error .fileNotFound) ∧
    (∀ (fs : FileSystem) (p : String), readParsed fs p = some none →
        sanitizeLoadJson fs p = .error .jsonDecodeError ∧
        validateLoadJson fs p = .error .jsonDecodeError) ∧
    (∀ (fs : FileSystem) (p : String) (v : JsonValue),
        readParsed fs p = some (some v) →
        sanitizeLoadJson fs p = .ok v ∧ validateLoadJson fs p = .ok v) ∧
    (∀ (fs : FileSystem) (p : String) (ss : Nat) (v : JsonValue),
        readParsed fs p = some (some v) → (∀ xs, v ≠ JsonValue.arr xs) →
        validate_file fs p ss
          = .ok (false, none, ["JSON root must be an array of records"])) := by
  refine ⟨?_, ?_, ?_, ?_⟩
  · intro fs p h
    constructor
    · unfold sanitizeLoadJson
      rw [h]
    · unfold validateLoadJson
      rw [h]
      rfl
  · intro fs p h
    constructor
    · unfold sanitizeLoadJson
      rw [h]
    · unfold validateLoadJson
      rw [h]
      rfl
  · intro fs p v h
    constructor
    · unfold sanitizeLoadJson
      rw [h]
      show (if pathSuffix p = ".gz" then Except.ok v else Except.ok v) = _
      split <;> rfl
    · unfold validateLoadJson
      rw [h]
      show (if (Option.isNone (some (some v)) : Bool) = true then _
        else if pathSuffix p = ".gz" then Except.ok v else Except.ok v) = _
      rw [if_neg (by simp)]
      split <;> rfl
  · intro fs p ss v h hv
    have hload : validateLoadJson fs p = .ok v := by
      unfold validateLoadJson
      rw [h]
      show (if (Option.isNone (some (some v)) : Bool) = true then _
        else if pathSuffix p = ".gz" then Except.ok v else Except.ok v) = _
      rw [if_neg (by simp)]
      split <;> rfl
    unfold validate_file
    rw [hload]
    match v, hv with
    | .null, _ => rfl
    | .bool b, _ => rfl
    | .int n, _ => rfl
    | .str s, _ => rfl
    | .obj fs2, _ => rfl
    | .arr xs, hv => exact absurd rfl (hv xs)

/-- C9 amended, witness: the loaders applied to a one-file filesystem holding
a parsed array under a `.gz` path. -/
theorem C9_load_semantics_amended_witness :
    sanitizeLoadJson [("a.json.gz", some (JsonValue.arr JsonItems.nil))]
        "a.json.gz" = .ok (JsonValue.arr JsonItems.nil) ∧
    validateLoadJson [("a.json.gz", some (JsonValue.arr JsonItems.nil))]
        "a.json.gz" = .ok (JsonValue.arr JsonItems.nil) :=
  C9_load_semantics_amended.2.2.1
    [("a.json.gz", some (JsonValue.arr JsonItems.nil))] "a.json.gz"
    (JsonValue.arr JsonItems.nil) rfl

/-! The error-cap arithmetic of `validate_file`. -/

theorem bind_ok {ε α β : Type} (e : Except ε α) (k : α → Except ε β) (b : β)
    (h : e >>= k = Except.ok b) : ∃ a, e = Except.ok a ∧ k a = Except.ok b := by
  cases e with
  | error x => exact Except.noConfusion h
  | ok a => exact ⟨a, rfl, h⟩

theorem foldr_append_length_le {α : Type} (f : α → List String)
    (h : ∀ a, (f a).length ≤ 1) (l : List α) :
    (l.foldr (fun p acc => f p ++ acc) []).length ≤ l.length := by
  induction l with
  | nil => simp
  | cons a as ih =>
    rw [List.foldr_cons, List.length_append, List.length_cons]
    have h2 := h a
    omega

theorem checkRequired_le (i : Nat) (fs : JsonMembers) :
    (checkRequired i fs).length ≤ 4 := by
  unfold checkRequired
  exact foldr_append_length_le _ (fun p => by split <;> (try split) <;> simp) _

theorem checkOptional_le (i : Nat) (fs : JsonMembers) :
    (checkOptional i fs).length ≤ 12 := by
  unfold checkOptional
  exact foldr_append_length_le _ (fun p => by split <;> (try split) <;> simp) _

theorem createTimeCheck_le (i : Nat) (fs : JsonMembers) (es : List String)
    (h : createTimeCheck i fs = .ok es) : es.length ≤ 1 := by
  unfold createTimeCheck at h
  split at h
  · split at h
    all_goals first
      | (split at h <;> (injection h with h2; subst h2; simp))
      | (injection h with h2; subst h2; simp)
      | exact Except.noConfusion h
      | (split at h <;> exact Except.noConfusion h)
  · injection h with h2
    subst h2
    simp

theorem validate_record_le : ∀ (r : JsonValue) (i : Nat) (es : List String),
    validate_record r i = .ok es → es.length ≤ 17 := by
  intro r i es h
  match r with
  | JsonValue.obj fs =>
    unfold validate_record at h
    obtain ⟨ct, hct, h2⟩ := bind_ok _ _ _ h
    have h3 : Except.ok (checkRequired i fs ++ checkOptional i fs ++ ct)
        = Except.ok es := h2
    injection h3 with h4
    have l1 := checkRequired_le i fs
    have l2 := checkOptional_le i fs
    have l3 := createTimeCheck_le i fs ct hct
    rw [← h4, List.length_append, List.length_append]
    omega
  | JsonValue.null =>
    unfold validate_record at h
    injection h with h2
    rw [← h2]
    simp
  | JsonValue.bool b =>
    unfold validate_record at h
    injection h with h2
    rw [← h2]
    simp
  | JsonValue.int n =>
    unfold validate_record at h
    injection h with h2
    rw [← h2]
    simp
  | JsonValue.str t =>
    unfold validate_record at h
    injection h with h2
    rw [← h2]
    simp
  | JsonValue.arr xs =>
    unfold validate_record at h
    injection h with h2
    rw [← h2]
    simp

theorem mainLoop_le : ∀ (data : List JsonValue) (i : Nat) (errs flds : List String)
    (sts : List JsonValue) (res : List String × List String × List JsonValue),
    errs.length ≤ 100 → mainLoop data i errs flds sts = .ok res →
    res.1.length ≤ 118 := by
  intro data
  induction data with
  | nil =>
    intro i errs flds sts res h1 h2
    unfold mainLoop at h2
    have h3 : Except.ok ((errs, flds, sts) :
        List String × List String × List JsonValue) = Except.ok res := h2
    injection h3 with h4
    rw [← h4]
    simpa using Nat.le_trans h1 (by omega)
  | cons r rest ih =>
    intro i errs flds sts res h1 h2
    unfold mainLoop at h2
    obtain ⟨recErrs, hv, h2⟩ := bind_ok _ _ _ h2
    have hrec := validate_record_le r i recErrs hv
    simp only [] at h2
    split at h2
    · -- record is a dict
      split at h2
      · obtain ⟨sts2, hadd, h2⟩ := bind_ok _ _ _ h2
        split at h2
        · rename_i hcap
          have h3 := h2
          injection h3 with h4
          rw [← h4]
          simp only [List.length_append, List.length_singleton]
          omega
        · rename_i hcap
          rw [List.length_append] at hcap
          exact ih _ _ _ _ res (by rw [List.length_append]; omega) h2
      · obtain ⟨sts2, hadd, h2⟩ := bind_ok _ _ _ h2
        split at h2
        · rename_i hcap
          have h3 := h2
          injection h3 with h4
          rw [← h4]
          simp only [List.length_append, List.length_singleton]
          omega
        · rename_i hcap
          rw [List.length_append] at hcap
          exact ih _ _ _ _ res (by rw [List.length_append]; omega) h2
    · -- record is not a dict
      obtain ⟨fs2, hfs2, h2⟩ := bind_ok _ _ _ h2
      split at h2
      · rename_i hcap
        have h3 := h2
        injection h3 with h4
        rw [← h4]
        simp only [List.length_append, List.length_singleton]
        omega
      · rename_i hcap
        rw [List.length_append] at hcap
        exact ih _ _ _ _ res (by rw [List.length_append]; omega) h2

theorem tailLoop_step_le (rest : List JsonValue)
    (ih : ∀ (i : Nat) (errs : List String), errs.length ≤ 118 →
      (tailLoop rest i errs).length ≤ 119)
    (i : Nat) (errs : List String) (h1 : errs.length ≤ 118) (m : String) :
    (if (errs ++ [m]).length > 100 then errs ++ [m]
     else tailLoop rest (i + 1) (errs ++ [m])).length ≤ 119 := by
  by_cases hl : (errs ++ [m]).length > 100
  · rw [if_pos hl, List.length_append]
    simp only [List.length_singleton]
    rw [List.length_append] at hl
    simp only [List.length_singleton] at hl
    omega
  · rw [if_neg hl]
    rw [List.length_append] at hl
    simp only [List.length_singleton] at hl
    exact ih (i + 1) (errs ++ [m])
      (by rw [List.length_append]; simp only [List.length_singleton]; omega)

theorem tailLoop_le : ∀ (data : List JsonValue) (i : Nat) (errs : List String),
    errs.length ≤ 118 → (tailLoop data i errs).length ≤ 119 := by
  intro data
  induction data with
  | nil =>
    intro i errs h1
    unfold tailLoop
    omega
  | cons r rest ih =>
    intro i errs h1
    match r with
    | JsonValue.obj fs =>
      show (tailLoop rest (i + 1) errs).length ≤ 119
      exact ih (i + 1) errs h1
    | JsonValue.null => exact tailLoop_step_le rest ih i errs h1 ("Record " ++ toString i ++ ": not a dictionary")
    | JsonValue.bool b => exact tailLoop_step_le rest ih i errs h1 ("Record " ++ toString i ++ ": not a dictionary")
    | JsonValue.int n => exact tailLoop_step_le rest ih i errs h1 ("Record " ++ toString i ++ ": not a dictionary")
    | JsonValue.str t => exact tailLoop_step_le rest ih i errs h1 ("Record " ++ toString i ++ ": not a dictionary")
    | JsonValue.arr xs => exact tailLoop_step_le rest ih i errs h1 ("Record " ++ toString i ++ ": not a dictionary")

theorem mem_insertLe {α : Type} (le : α → α → Bool) (x a : α) : ∀ (l : List α),
    a ∈ insertLe le x l ↔ a = x ∨ a ∈ l := by
  intro l
  induction l with
  | nil => simp [insertLe]
  | cons y ys ih =>
    rw [insertLe]
    split
    · simp
    · rw [List.mem_cons, ih, List.mem_cons]
      tauto

theorem mem_insSort {α : Type} (le : α → α → Bool) (a : α) : ∀ (l : List α),
    a ∈ insSort le l ↔ a ∈ l := by
  intro l
  induction l with
  | nil => exact Iff.rfl
  | cons x xs ih =>
    rw [insSort, mem_insertLe, ih, List.mem_cons]

theorem contains_insSort (le : String → String → Bool) (l : List String)
    (a : String) : (insSort le l).contains a = l.contains a := by
  apply Bool.eq_iff_iff.mpr
  show (insSort le l).elem a = true ↔ l.elem a = true
  rw [List.elem_iff, List.elem_iff]
  exact mem_insSort le a l

/-- What a normal return of `validate_data` looks like: the error-list bound,
the exact stats fields, and the defining equation of the validity bit. -/
theorem validate_data_ok_shape (data : List JsonValue) (ss : Nat) (b : Bool)
    (st : VStats) (errs : List String)
    (h : validate_data data ss = .ok (b, st, errs)) :
    errs.length ≤ 119 ∧
    st.total_records = data.length ∧
    st.records_validated = (if ss = 0 then data.length else min ss data.length) ∧
    st.required_fields_present
      = REQUIRED_FIELDS.all (fun p => st.fields_found.contains p.1) ∧
    b = (decide (errs.length = 0) && st.required_fields_present) := by
  unfold validate_data at h
  obtain ⟨acc, hacc, h⟩ := bind_ok _ _ _ h
  obtain ⟨sortedSts, hss, h⟩ := bind_ok _ _ _ h
  have hml := mainLoop_le _ _ _ _ _ acc (by simp) hacc
  injection h with h4
  rw [Prod.mk.injEq, Prod.mk.injEq] at h4
  obtain ⟨hb, hst, herrs⟩ := h4
  subst hst
  subst herrs
  subst hb
  refine ⟨?_, rfl, rfl, ?_, rfl⟩
  · split
    · exact tailLoop_le _ _ _ hml
    · omega
  · show REQUIRED_FIELDS.all (fun p => acc.2.1.contains p.1)
      = REQUIRED_FIELDS.all (fun p => (insSort strLe acc.2.1).contains p.1)
    have h5 : (fun p : String × TypeSpec => (insSort strLe acc.2.1).contains p.1)
        = (fun p => acc.2.1.contains p.1) :=
      funext fun p => contains_insSort strLe acc.2.1 p.1
    rw [h5]

/-- C7 counterexample: 102 consecutive malformed records produce an error
list of 102 entries — 101 per-record messages plus the trailing marker —
exceeding the claimed cap of 100 messages plus one marker (the cap test
`len(errors) > 100` runs only after a whole record's errors are appended). -/
theorem C7_error_cap_overflow_counterexample :
    ((validate_data (List.replicate 102 JsonValue.null) 0).map
      (fun t => (t.2.2.length, t.2.2.getLastD "", t.2.1.total_records)))
      = .ok (102, errorCapMarker, 102) := rfl

/-- C7 amended: on every normal return the error list carries at most 119
entries (at most 101 + 17 from the capped main loop, one more from the tail
loop), while `total_records` always equals the true input length; 1000
malformed records yield 102 error entries ending in the truncation marker,
with `total_records = 1000`. -/
theorem C7_error_cap_amended :
    (∀ (data : List JsonValue) (ss : Nat) (b : Bool) (st : VStats)
        (errs : List String), validate_data data ss = .ok (b, st, errs) →
        errs.length ≤ 119 ∧ st.total_records = data.length) ∧
    ((validate_data (List.replicate 1000 JsonValue.null) 0).map
      (fun t => (t.2.2.length, t.2.2.getLastD "", t.2.1.total_records)))
      = .ok (102, errorCapMarker, 1000) := by
  refine ⟨?_, rfl⟩
  intro data ss b st errs h
  have h2 := validate_data_ok_shape data ss b st errs h
  exact ⟨h2.1, h2.2.1⟩

/-- C7 amended, witness: the bound and the exact total applied to a one-record
input. -/
theorem C7_error_cap_amended_witness :
    (["Record 0: not a dictionary"] : List String).length ≤ 119 ∧
    (VStats.mk 1 1 [] [] false).total_records = [JsonValue.null].length :=
  C7_error_cap_amended.1 [JsonValue.null] 0 false (VStats.mk 1 1 [] [] false)
    ["Record 0: not a dictionary"] rfl

/-- C8: sampled-validation semantics: `records_validated` is the whole input
when `sample_size = 0` and `min sample_size total` otherwise; the validity
bit is true exactly when the error list is empty and every required field
name occurs among the observed field names; and on a concrete collection
with one bad record at index 50, sampling 10 records reports valid while a
full pass reports invalid. -/
theorem C8_sampled_validation_semantics :
    (∀ (data : List JsonValue) (ss : Nat) (b : Bool) (st : VStats)
        (errs : List String), validate_data data ss = .ok (b, st, errs) →
        st.records_validated
          = (if ss = 0 then data.length else min ss data.length) ∧
        st.required_fields_present
          = REQUIRED_FIELDS.all (fun p => st.fields_found.contains p.1) ∧
        (b = true ↔ errs = [] ∧ st.required_fields_present = true)) ∧
    ((validate_data (List.replicate 50 (JsonValue.obj (JsonMembers.cons "id" (JsonValue.int 1) (JsonMembers.cons "create_time" (JsonValue.str "2024-01-01T00:00:00") (JsonMembers.cons "tool_id" (JsonValue.str "t") (JsonMembers.cons "state" (JsonValue.str "ok") JsonMembers.nil))))) ++ (JsonValue.obj (JsonMembers.cons "create_time" (JsonValue.str "2024-01-01T00:00:00") (JsonMembers.cons "tool_id" (JsonValue.str "t") (JsonMembers.cons "state" (JsonValue.str "error") JsonMembers.nil)))) :: List.replicate 49 (JsonValue.obj (JsonMembers.cons "id" (JsonValue.int 1) (JsonMembers.cons "create_time" (JsonValue.str "2024-01-01T00:00:00") (JsonMembers.cons "tool_id" (JsonValue.str "t") (JsonMembers.cons "state" (JsonValue.str "ok") JsonMembers.nil)))))) 10).map (fun t => t.1) = .ok true) ∧
    ((validate_data (List.replicate 50 (JsonValue.obj (JsonMembers.cons "id" (JsonValue.int 1) (JsonMembers.cons "create_time" (JsonValue.str "2024-01-01T00:00:00") (JsonMembers.cons "tool_id" (JsonValue.str "t") (JsonMembers.cons "state" (JsonValue.str "ok") JsonMembers.nil))))) ++ (JsonValue.obj (JsonMembers.cons "create_time" (JsonValue.str "2024-01-01T00:00:00") (JsonMembers.cons "tool_id" (JsonValue.str "t") (JsonMembers.cons "state" (JsonValue.str "error") JsonMembers.nil)))) :: List.replicate 49 (JsonValue.obj (JsonMembers.cons "id" (JsonValue.int 1) (JsonMembers.cons "create_time" (JsonValue.str "2024-01-01T00:00:00") (JsonMembers.cons "tool_id" (JsonValue.str "t") (JsonMembers.cons "state" (JsonValue.str "ok") JsonMembers.nil)))))) 0).map (fun t => t.1) = .ok false) := by
  refine ⟨?_, rfl, rfl⟩
  intro data ss b st errs h
  have h2 := validate_data_ok_shape data ss b st errs h
  refine ⟨h2.2.2.1, h2.2.2.2.1, ?_⟩
  rw [h2.2.2.2.2]
  simp [Bool.and_eq_true, List.length_eq_zero]

/-- C8, witness: the general part applied to a one-record input. -/
theorem C8_sampled_validation_semantics_witness :
    ((VStats.mk 1 1 [] [] false).records_validated
      = (if (0 : Nat) = 0 then [JsonValue.null].length
         else min 0 [JsonValue.null].length)) ∧
    ((VStats.mk 1 1 [] [] false).required_fields_present
      = REQUIRED_FIELDS.all (fun p =>
          (VStats.mk 1 1 [] [] false).fields_found.contains p.1)) ∧
    (false = true ↔ ["Record 0: not a dictionary"] = ([] : List String) ∧
      (VStats.mk 1 1 [] [] false).required_fields_present = true) :=
  C8_sampled_validation_semantics.1 [JsonValue.null] 0 false
    (VStats.mk 1 1 [] [] false) ["Record 0: not a dictionary"] rfl

end ErrorReports
